import Mathlib

/-!
Verification of the hipchat-cli notification sender against its source
(hipchat.go).  The core of the development is a shallow embedding of the
plain-text formatter processPlainText: the URL pattern urlRe is compiled by
hand into an executable matcher with the leftmost-first preference
semantics of the Go regexp engine, and the scan loop, the HTML escaping and
the sender glue (message construction, JSON serialization, response
classification, the insecure flag) are translated as pure functions on
character lists.
-/

namespace Hipchat

/-! ### Character classes of the URL pattern -/

/-- ASCII word character, as used by the word-boundary assertion of Go
regular expressions. -/
def isWordChar (c : Char) : Bool :=
  ('a' ≤ c && c ≤ 'z') || ('A' ≤ c && c ≤ 'Z') || ('0' ≤ c && c ≤ '9') || c == '_'

/-- Perl whitespace class of Go regular expressions: tab, newline, form
feed, carriage return, space. -/
def isSpaceChar (c : Char) : Bool :=
  c == ' ' || c == '\t' || c == '\n' || c == '\u000C' || c == '\r'

/-- Characters allowed in the plain runs of the URL body (the negated class
of whitespace, parentheses and angle brackets). -/
def isBodyChar (c : Char) : Bool :=
  !(isSpaceChar c) && c != '(' && c != ')' && c != '<' && c != '>'

/-- Characters refused as the final character of a URL match: whitespace,
backtick (96), exclamation mark, parentheses, square brackets (91, 93),
curly braces (123, 125), semicolon, colon, straight quotes (39, 34),
period, comma, angle brackets, question mark, guillemets and curly
quotes. -/
def isBannedFinal (c : Char) : Bool :=
  isSpaceChar c || c.val == 96 || c == '!' || c == '(' || c == ')' ||
  c.val == 91 || c.val == 93 || c.val == 123 || c.val == 125 ||
  c == ';' || c == ':' || c.val == 39 || c.val == 34 || c == '.' || c == ',' ||
  c == '<' || c == '>' || c == '?' || c == '«' || c == '»' ||
  c == '“' || c == '”' || c == '‘' || c == '’'

/-- The case-insensitive class of letters, digits and percent accepted
right after the scheme colon.  Under the simple case folding applied by the
Go engine the letter range also admits the Kelvin sign (8490) and the long
s (383). -/
def isSchemeTail (c : Char) : Bool :=
  ('a' ≤ c && c ≤ 'z') || ('A' ≤ c && c ≤ 'Z') || ('0' ≤ c && c ≤ '9') ||
  c == '%' || c.val == 8490 || c.val == 383

/-- Case folding for the literal letters of the scheme. -/
def foldH (c : Char) : Bool := c == 'h' || c == 'H'

/-- Case folding for the letter t of the scheme. -/
def foldT (c : Char) : Bool := c == 't' || c == 'T'

/-- Case folding for the letter p of the scheme. -/
def foldP (c : Char) : Bool := c == 'p' || c == 'P'

/-- Case folding for the letter s of the scheme; the long s (383) folds
with it. -/
def foldS (c : Char) : Bool := c == 's' || c == 'S' || c.val == 383

/-- Length of the case-insensitive scheme literal at the head of the input:
6 for an https variant, 5 for http, none otherwise. -/
def schemeLitLen (l : List Char) : Option Nat :=
  match l with
  | c1 :: c2 :: c3 :: c4 :: c5 :: rest =>
    if foldH c1 && foldT c2 && foldT c3 && foldP c4 then
      if foldS c5 then
        match rest with
        | c6 :: _ => if c6 == ':' then some 6 else none
        | [] => none
      else if c5 == ':' then some 5 else none
    else none
  | _ => none

/-! ### The URL matcher -/

/-- Length of the maximal plain run at the head of the input. -/
def runLen (l : List Char) : Nat := (l.takeWhile isBodyChar).length

/-- Length of the maximal run of slashes at the head of the input. -/
def slashRunLen (l : List Char) : Nat := (l.takeWhile (fun c => c == '/')).length

/-- Scanner for the inside of a parenthetical group, everything after the
opening parenthesis up to and including the balancing close.  The inner
grammar of the pattern is a possibly empty sequence of plain runs and
single-level nested groups of one nonempty plain run, then the closing
parenthesis; since neither kind of inner unit can contain a bare closing
parenthesis, recognition is a three-state scan: state 0 is the top level,
state 1 is right after a nested open, state 2 is inside a nested group
after at least one plain character.  Returns the number of characters
consumed including the balancing close, or none when the group does not
close this way (the equivalence with the grammar is proved below as
parenScan_iff_innerClose). -/
def parenScan : Nat → List Char → Option Nat
  | _, [] => none
  | st, c :: rest =>
    if st = 0 then
      if c = ')' then some 1
      else if c = '(' then (parenScan 1 rest).map (fun k => k + 1)
      else if isBodyChar c then (parenScan 0 rest).map (fun k => k + 1)
      else none
    else if st = 1 then
      if isBodyChar c then (parenScan 2 rest).map (fun k => k + 1) else none
    else
      if c = ')' then (parenScan 0 rest).map (fun k => k + 1)
      else if isBodyChar c then (parenScan 2 rest).map (fun k => k + 1)
      else none

/-- Total consumption of a parenthetical group including both
parentheses. -/
def parenLen (l : List Char) : Option Nat :=
  match l with
  | '(' :: rest => (parenScan 0 rest).map (fun k => k + 1)
  | _ => none

/-- Consumption of the final element of the pattern: a parenthetical group,
or a single character outside the banned set.  The two alternatives are
distinguished by the first character, since the opening parenthesis is
banned as a plain final character. -/
def tryFinal (l : List Char) : Option Nat :=
  match l with
  | [] => none
  | c :: rest =>
    if c = '(' then parenLen (c :: rest)
    else if isBannedFinal c then none
    else some 1

/-- Consumption choices for one unit of the body alternation, in the
preference order of the pattern: a plain run, longest first, or a
parenthetical group (the two alternatives are distinguished by the first
character). -/
def unitChoices (l : List Char) : List Nat :=
  match l with
  | [] => []
  | c :: rest =>
    if c = '(' then
      match parenLen (c :: rest) with
      | some n => [n]
      | none => []
    else if isBodyChar c then
      (List.range (runLen (c :: rest))).map (fun i => runLen (c :: rest) - i)
    else []

/-- Backtracking search for one-or-more body units followed by the rest of
the pattern k, exploring parses in the preference order of the Go engine.
The last argument is the list of pending consumption choices for the next
unit: for each choice in order, first continue the repetition after the
unit (with the choices of the new position), then stop the repetition and
run the rest of the pattern; on failure move to the next choice.  The fuel
merely bounds the number of exploration steps; started from the canonical
amount goFuel it is never exhausted (the equivalence proof with the chain
walk below depends only on a sufficient amount of fuel). -/
def tryGo (k : List Char → Option Nat) : Nat → List Char → List Nat → Option Nat
  | 0, _, _ => none
  | _ + 1, _, [] => none
  | fuel + 1, l, c :: cs =>
    ((tryGo k fuel (l.drop c) (unitChoices (l.drop c))).map (fun r => c + r) <|>
      (k (l.drop c)).map (fun r => c + r)) <|>
    tryGo k fuel l cs

/-- Fuel that suffices for the exploration of an input of the given
length. -/
def needFuel : Nat → Nat
  | 0 => 1
  | n + 1 => needFuel n + n + 1

/-- Canonical fuel for a whole input. -/
def goFuel (l : List Char) : Nat := needFuel l.length + l.length

/-- Body-and-final search starting right after the scheme. -/
def bodyFinalGo (l : List Char) : Option Nat :=
  tryGo tryFinal (goFuel l) l (unitChoices l)

/-- Slash variants of the scheme, preferring more slashes (the greedy
one-to-three repetition), each followed by the body-and-final search.
p is the length of the scheme literal. -/
def slashTry (p : Nat) (l : List Char) : Nat → Option Nat
  | 0 => none
  | j + 1 =>
    (Option.map (fun r => (p + (j + 1)) + r) (bodyFinalGo (l.drop (p + (j + 1))))) <|>
    slashTry p l j

/-- One attempt of the URL pattern at the head of the input (the
word-boundary assertion is checked by the caller): scheme literal, then
one to three slashes or one scheme-tail character, then body units and the
final element.  Returns the number of characters matched. -/
def matchHere (l : List Char) : Option Nat :=
  match schemeLitLen l with
  | none => none
  | some p =>
    if 0 < min (slashRunLen (l.drop p)) 3 then
      slashTry p l (min (slashRunLen (l.drop p)) 3)
    else
      match l.drop p with
      | c :: _ =>
        if isSchemeTail c then
          Option.map (fun r => (p + 1) + r) (bodyFinalGo (l.drop (p + 1)))
        else none
      | [] => none

/-- Scan for the leftmost match of the URL pattern: at each position where
the word-boundary assertion holds, try the pattern; the first success wins.
Returns the start index and the match length. -/
def urlFindAux : Bool → Nat → List Char → Option (Nat × Nat)
  | _, _, [] => none
  | prevWord, i, c :: rest =>
    if prevWord != isWordChar c then
      match matchHere (c :: rest) with
      | some n => some (i, n)
      | none => urlFindAux (isWordChar c) (i + 1) rest
    else urlFindAux (isWordChar c) (i + 1) rest

/-- FindIndex of the URL pattern over the whole input; the start of the
text counts as a non-word position for the boundary assertion. -/
def urlFind (src : List Char) : Option (Nat × Nat) := urlFindAux false 0 src

/-- Step of the chain of body-unit boundaries: from any position, the set
of positions reachable by sequences of body units forms a single chain,
because a plain character contributes the one-character step that every
longer run decomposes into, and a parenthetical group has a unique
extent. -/
def chainStep (l : List Char) : Option Nat :=
  match l with
  | [] => none
  | c :: rest =>
    if c = '(' then parenLen (c :: rest)
    else if isBodyChar c then some 1
    else none

/-- Walk of the chain of body-unit boundaries, preferring the deepest
boundary at which the rest of the pattern k succeeds; proved below to agree
with the backtracking search tryBodyGoF. -/
def bodySearchK (k : List Char → Option Nat) (l : List Char) : Option Nat :=
  match h : chainStep l with
  | none => none
  | some s =>
    match bodySearchK k (l.drop s) with
    | some r => some (s + r)
    | none => (k (l.drop s)).map (fun f => s + f)
termination_by l.length
decreasing_by
  rcases l with _ | ⟨c, rest⟩
  · simp [chainStep] at h
  · have hs : 0 < s := by
      by_cases hc : c = '('
      · simp only [chainStep, hc, if_pos] at h
        simp only [parenLen, Option.map_eq_some'] at h
        obtain ⟨k', -, hk'⟩ := h
        omega
      · by_cases hb : isBodyChar c
        · simp [chainStep, hc, hb] at h
          omega
        · simp [chainStep, hc, hb] at h
    simp only [List.length_drop, List.length_cons]
    omega

/-- Value of one backtracking branch of the body search: a first unit of i
characters, then either more units and the rest of the pattern, or the rest
of the pattern immediately (an abbreviation used by the equivalence
proofs). -/
def searchBranch (k : List Char → Option Nat) (l : List Char) (i : Nat) : Option Nat :=
  ((bodySearchK k (l.drop i)).map (fun r => i + r) <|>
    (k (l.drop i)).map (fun r => i + r))

/-- Value of one slash-count branch of the scheme search: after the scheme
literal of length p and i slashes, the body-and-final search runs on the
rest (an abbreviation used by the equivalence proofs). -/
def slashBranch (l : List Char) (p i : Nat) : Option Nat :=
  (bodySearchK tryFinal (l.drop (p + i))).map (fun r => (p + i) + r)

/-! ### Declarative reading of the URL grammar

The pattern, read as a grammar over the consumed segment: a scheme literal
(case-insensitive http or https and a colon), then one to three slashes or
one letter-digit-percent character, then one or more body units (nonempty
plain runs or balanced parenthetical groups), then a final element (a
parenthetical group or one character outside the banned set). -/

/-- One inner unit of a parenthetical group: a nonempty plain run, or a
nested group of one nonempty plain run between parentheses. -/
inductive InnerUnit : List Char → Prop where
  | run : ∀ a : List Char, a ≠ [] → (∀ x ∈ a, isBodyChar x) → InnerUnit a
  | nested : ∀ a : List Char, a ≠ [] → (∀ x ∈ a, isBodyChar x) →
      InnerUnit ('(' :: a ++ [')'])

/-- A possibly empty sequence of inner units. -/
inductive InnerSeq : List Char → Prop where
  | nil : InnerSeq []
  | cons : ∀ a b : List Char, InnerUnit a → InnerSeq b → InnerSeq (a ++ b)

/-- A balanced parenthetical group: open, inner sequence, close. -/
def ParenGroup (w : List Char) : Prop :=
  ∃ inner, InnerSeq inner ∧ w = '(' :: inner ++ [')']

/-- One unit of the body alternation: a nonempty plain run or a
parenthetical group. -/
def BodyUnit (w : List Char) : Prop :=
  (w ≠ [] ∧ ∀ x ∈ w, isBodyChar x) ∨ ParenGroup w

/-- One or more body units. -/
inductive BodySeg : List Char → Prop where
  | one : ∀ w : List Char, BodyUnit w → BodySeg w
  | cons : ∀ w v : List Char, BodyUnit w → BodySeg v → BodySeg (w ++ v)

/-- The final element of the pattern: a parenthetical group, or one
character outside the banned set. -/
def FinalSeg (w : List Char) : Prop :=
  ParenGroup w ∨ ∃ ch, w = [ch] ∧ isBannedFinal ch = false

/-- The case-insensitive scheme literal: http or https, then a colon. -/
def LitHttp (w : List Char) : Prop :=
  (∃ c1 c2 c3 c4, w = [c1, c2, c3, c4, ':'] ∧
    foldH c1 ∧ foldT c2 ∧ foldT c3 ∧ foldP c4) ∨
  (∃ c1 c2 c3 c4 c5, w = [c1, c2, c3, c4, c5, ':'] ∧
    foldH c1 ∧ foldT c2 ∧ foldT c3 ∧ foldP c4 ∧ foldS c5)

/-- The scheme segment: the scheme literal, then one to three slashes or
one letter-digit-percent character. -/
def SchemeSeg (w : List Char) : Prop :=
  ∃ u v, w = u ++ v ∧ LitHttp u ∧
    ((∃ j, 1 ≤ j ∧ j ≤ 3 ∧ v = List.replicate j '/') ∨
     (∃ ch, v = [ch] ∧ isSchemeTail ch))

/-- A segment matched by the whole pattern (the word-boundary assertion at
its start is a property of the surrounding text, not of the segment). -/
def UrlMatch (w : List Char) : Prop :=
  ∃ s b f, w = s ++ b ++ f ∧ SchemeSeg s ∧ BodySeg b ∧ FinalSeg f

/-- Wordness of the character at an index, false beyond the end. -/
def wordAt (src : List Char) (j : Nat) : Bool :=
  match src.get? j with
  | some c => isWordChar c
  | none => false

/-- The word-boundary assertion at an index: the wordness of the previous
character (false at the start of the text) differs from the wordness of the
character at the index. -/
def boundaryAt (src : List Char) (j : Nat) : Bool :=
  (decide (j ≠ 0) && wordAt src (j - 1)) != wordAt src j

/-- A match of the URL pattern at an index of the text: the boundary
assertion holds there and a segment starting there is matched by the
grammar. -/
def MatchAt (src : List Char) (j n : Nat) : Prop :=
  boundaryAt src j = true ∧
  ∃ w rest, src.drop j = w ++ rest ∧ w.length = n ∧ UrlMatch w

/-! ### HTML escaping and the formatter loop -/

/-- Replacement performed by Go html.EscapeString on one character:
ampersand, apostrophe (39), less-than, greater-than and double quote (34)
become entities. -/
def escapeChar (c : Char) : List Char :=
  if c == '&' then "&amp;".toList
  else if c.val == 39 then "&#39;".toList
  else if c == '<' then "&lt;".toList
  else if c == '>' then "&gt;".toList
  else if c.val == 34 then "&#34;".toList
  else [c]

/-- Go html.EscapeString over a chunk of text. -/
def escapeString (l : List Char) : List Char := (l.map escapeChar).flatten

/-- Anchor markup emitted for a discovered URL: the href attribute and the
link text are both the raw match. -/
def anchor (u : List Char) : List Char :=
  "<a href=\"".toList ++ u ++ "\">".toList ++ u ++ "</a>".toList

/-- Scan loop of processPlainText, with fuel bounding the number of
matches processed: escape the text before the match, emit the anchor,
continue after the match; when no match remains, escape the rest.  The
fuel default of the wrapper is never exhausted because every match
consumes at least one character. -/
def processAux : Nat → List Char → List Char
  | 0, src => escapeString src
  | fuel + 1, src =>
    match urlFind src with
    | none => escapeString src
    | some (i, n) =>
      escapeString (src.take i) ++ anchor ((src.drop i).take n) ++
        processAux fuel (src.drop (i + n))

/-- processPlainText from the source: HTML-ify a plain-text message. -/
def processPlainText (src : List Char) : List Char :=
  processAux (src.length + 1) src

/-- Decomposition invariant of the formatter: the source splits into
literal chunks and URL segments matched by the grammar, and the output is
the concatenation of the escaped literal chunks and the anchors of the URL
segments, each URL appearing verbatim in its anchor. -/
inductive Chunked : List Char → List Char → Prop where
  | last : ∀ rest : List Char, Chunked rest (escapeString rest)
  | step : ∀ t u src out : List Char, UrlMatch u → Chunked src out →
      Chunked (t ++ u ++ src) (escapeString t ++ anchor u ++ out)

/-! ### The notification sender -/

/-- The Message payload of the source; the from field is serialized only
when nonempty (omitempty, with the unset flag leaving it at the empty
string). -/
structure Message where
  fromName : List Char
  message : List Char
  color : List Char
  messageFormat : List Char
  notify : Bool
deriving DecidableEq

/-- Body of the message as built in doSend: the formatter is applied unless
the html flag says the input is already HTML. -/
def messageBody (alreadyHtml : Bool) (text : List Char) : List Char :=
  if alreadyHtml then text else processPlainText text

/-- Default of the color flag. -/
def defaultColor : List Char := "yellow".toList

/-- Message construction of doSend: color and notify from the flags, body
from messageBody, format always html, from only when the flag is set. -/
def buildMessage (alreadyHtml : Bool) (colorFlag : List Char) (notifyFlag : Bool)
    (fromFlag : Option (List Char)) (text : List Char) : Message :=
  { fromName := fromFlag.getD []
    message := messageBody alreadyHtml text
    color := colorFlag
    messageFormat := "html".toList
    notify := notifyFlag }

/-- Lowercase hexadecimal digit. -/
def hexDigit (n : Nat) : Char :=
  if n < 10 then Char.ofNat (48 + n) else Char.ofNat (87 + n)

/-- JSON string escaping of Go encoding/json with its default HTML
escaping: double quote (34), backslash, newline, carriage return, tab,
angle brackets and ampersand (as lowercase u-escapes), remaining control
characters, and the line separators 8232 and 8233. -/
def jsonEscapeChar (c : Char) : List Char :=
  if c.val == 34 then ['\\', Char.ofNat 34]
  else if c == '\\' then ['\\', '\\']
  else if c == '\n' then ['\\', 'n']
  else if c == '\r' then ['\\', 'r']
  else if c == '\t' then ['\\', 't']
  else if c == '<' then "\\u003c".toList
  else if c == '>' then "\\u003e".toList
  else if c == '&' then "\\u0026".toList
  else if c.val < 32 then
    "\\u00".toList ++ [hexDigit ((c.val.toNat / 16) % 16), hexDigit (c.val.toNat % 16)]
  else if c.val == 8232 then "\\u2028".toList
  else if c.val == 8233 then "\\u2029".toList
  else [c]

/-- A JSON string literal for the given text. -/
def jsonString (l : List Char) : List Char :=
  [Char.ofNat 34] ++ (l.map jsonEscapeChar).flatten ++ [Char.ofNat 34]

/-- json.Marshal of the Message struct: fields in declaration order with
their tagged names, the from field omitted when empty, notify as a JSON
boolean. -/
def marshalMessage (m : Message) : List Char :=
  "\x7b".toList ++
  (if m.fromName.isEmpty then []
   else "\"from\":".toList ++ jsonString m.fromName ++ ",".toList) ++
  "\"message\":".toList ++ jsonString m.message ++
  ",\"color\":".toList ++ jsonString m.color ++
  ",\"message_format\":".toList ++ jsonString m.messageFormat ++
  ",\"notify\":".toList ++ (if m.notify then "true".toList else "false".toList) ++
  "\x7d".toList

/-- Outcome of a send: success, the post-failed error carrying the status
line and the response entity, or the not-implemented error of the insecure
flag. -/
inductive SendOutcome where
  | success : SendOutcome
  | postFailed : List Char → List Char → SendOutcome
  | notImplemented : SendOutcome
deriving DecidableEq

/-- Status switch of doSend: 200 and 204 succeed, anything else is the
post-failed error with the status line and entity surfaced. -/
def classifyResponse (code : Nat) (status entity : List Char) : SendOutcome :=
  if code == 200 || code == 204 then .success else .postFailed status entity

/-- An HTTP request as far as the model needs it. -/
structure HttpRequest where
  url : List Char
  body : List Char
deriving DecidableEq

/-- Network phase of doSend: the insecure flag aborts with the
not-implemented error before any request is performed; otherwise exactly
one request is issued and the response is classified.  The second
component is the list of requests actually performed. -/
def performSend (insecure : Bool) (req : HttpRequest)
    (respond : HttpRequest → Nat × List Char × List Char) :
    SendOutcome × List HttpRequest :=
  if insecure then (.notImplemented, [])
  else
    let r := respond req
    (classifyResponse r.1 r.2.1 r.2.2, [req])

/-! ### Basic facts about the character classes -/

theorem isBodyChar_lparen : isBodyChar '(' = false := by decide

theorem isBodyChar_rparen : isBodyChar ')' = false := by decide

theorem isBodyChar_slash : isBodyChar '/' = true := by decide

theorem isBannedFinal_lparen : isBannedFinal '(' = true := by decide

theorem isSchemeTail_not_slash : isSchemeTail '/' = false := by decide

theorem ne_lparen_of_body {c : Char} (h : isBodyChar c = true) : c ≠ '(' := by
  intro hc; rw [hc, isBodyChar_lparen] at h; cases h

theorem ne_rparen_of_body {c : Char} (h : isBodyChar c = true) : c ≠ ')' := by
  intro hc; rw [hc, isBodyChar_rparen] at h; cases h

/-! ### Runs -/

theorem runLen_cons_pos {c : Char} (t : List Char) (h : isBodyChar c = true) :
    runLen (c :: t) = runLen t + 1 := by
  simp [runLen, List.takeWhile_cons, h]

theorem runLen_cons_zero {c : Char} (t : List Char) (h : isBodyChar c = false) :
    runLen (c :: t) = 0 := by
  simp [runLen, List.takeWhile_cons, h]

theorem runLen_le (l : List Char) : runLen l ≤ l.length := by
  induction l with
  | nil => simp [runLen]
  | cons c t ih =>
    by_cases hc : isBodyChar c
    · rw [runLen_cons_pos t hc]; simp; omega
    · rw [runLen_cons_zero t (by simpa using hc)]; simp

theorem runLen_append_run {a : List Char} (t : List Char)
    (h : ∀ x ∈ a, isBodyChar x) : runLen (a ++ t) = a.length + runLen t := by
  induction a with
  | nil => simp
  | cons c a ih =>
    have hc : isBodyChar c = true := h c (by simp)
    have ha : ∀ x ∈ a, isBodyChar x = true := fun x hx => h x (by simp [hx])
    simp only [List.cons_append, runLen_cons_pos _ hc, ih ha, List.length_cons]
    omega

theorem runLen_pos {c : Char} {t : List Char} (h : isBodyChar c = true) :
    0 < runLen (c :: t) := by
  rw [runLen_cons_pos t h]; omega

theorem take_runLen_body : ∀ l : List Char, ∀ x ∈ l.take (runLen l), isBodyChar x := by
  intro l
  induction l with
  | nil => simp
  | cons c t ih =>
    by_cases hc : isBodyChar c
    · rw [runLen_cons_pos t hc]
      intro x hx
      rcases List.mem_cons.1 (by simpa using hx) with hx | hx
      · subst hx; exact hc
      · exact ih x hx
    · rw [runLen_cons_zero t (by simpa using hc)]
      simp

theorem drop_head_body {l : List Char} {c : Nat} (h : c < runLen l) :
    ∃ ch t, l.drop c = ch :: t ∧ isBodyChar ch = true := by
  induction l generalizing c with
  | nil => simp [runLen] at h
  | cons ch0 t0 ih =>
    by_cases hc0 : isBodyChar ch0
    · cases c with
      | zero => exact ⟨ch0, t0, rfl, hc0⟩
      | succ c' =>
        rw [runLen_cons_pos t0 hc0] at h
        exact (ih (by omega))
    · rw [runLen_cons_zero t0 (by simpa using hc0)] at h
      omega

/-! ### The parenthetical scanner and the inner grammar -/

theorem parenScan_two_rparen (t : List Char) :
    parenScan 2 (')' :: t) = (parenScan 0 t).map (fun k => k + 1) := rfl

theorem parenScan_zero_rparen (t : List Char) :
    parenScan 0 (')' :: t) = some 1 := rfl

theorem parenScan_zero_lparen (t : List Char) :
    parenScan 0 ('(' :: t) = (parenScan 1 t).map (fun k => k + 1) := rfl

theorem parenScan_two_body {c : Char} (t : List Char) (hc : isBodyChar c = true) :
    parenScan 2 (c :: t) = (parenScan 2 t).map (fun k => k + 1) := by
  have hcr : c ≠ ')' := ne_rparen_of_body hc
  simp [parenScan, hcr, hc]

theorem parenScan_one_body {c : Char} (t : List Char) (hc : isBodyChar c = true) :
    parenScan 1 (c :: t) = (parenScan 2 t).map (fun k => k + 1) := by
  simp [parenScan, hc]

theorem parenScan_zero_body {c : Char} (t : List Char) (hc : isBodyChar c = true) :
    parenScan 0 (c :: t) = (parenScan 0 t).map (fun k => k + 1) := by
  have hcr : c ≠ ')' := ne_rparen_of_body hc
  have hcl : c ≠ '(' := ne_lparen_of_body hc
  simp [parenScan, hcr, hcl, hc]

theorem parenScan_state2_walk {a : List Char} (u : List Char)
    (h : ∀ x ∈ a, isBodyChar x) :
    parenScan 2 (a ++ ')' :: u) = (parenScan 0 u).map (fun k => k + (a.length + 1)) := by
  induction a with
  | nil =>
    rw [List.nil_append, parenScan_two_rparen]
    simp
  | cons c a ih =>
    have hc : isBodyChar c = true := h c (by simp)
    have ha : ∀ x ∈ a, isBodyChar x = true := fun x hx => h x (by simp [hx])
    rw [List.cons_append, parenScan_two_body _ hc, ih ha]
    cases parenScan 0 u with
    | none => rfl
    | some k =>
      simp only [Option.map_some', Option.some.injEq, List.length_cons] <;> omega

theorem parenScan_state2_sound : ∀ t n, parenScan 2 t = some n →
    ∃ a u m, t = a ++ ')' :: u ∧ (∀ x ∈ a, isBodyChar x) ∧
      parenScan 0 u = some m ∧ n = a.length + 1 + m := by
  intro t
  induction t with
  | nil => intro n h; simp [parenScan] at h
  | cons c t ih =>
    intro n h
    by_cases hc : c = ')'
    · subst hc
      rw [parenScan_two_rparen] at h
      rcases Option.map_eq_some'.1 h with ⟨m, hm, hn⟩
      exact ⟨[], t, m, by simp, by simp, hm, by simp only [List.length_nil]; omega⟩
    · by_cases hb : isBodyChar c
      · rw [parenScan_two_body _ hb] at h
        rcases Option.map_eq_some'.1 h with ⟨m, hm, hn⟩
        rcases ih m hm with ⟨a, u, m', ht, ha, hu, hm'⟩
        refine ⟨c :: a, u, m', by simp [ht], ?_, hu, ?_⟩
        · intro x hx
          rcases List.mem_cons.1 hx with hx | hx
          · subst hx; exact hb
          · exact ha x hx
        · simp only [List.length_cons]; omega
      · simp [parenScan, hc, hb] at h

theorem parenScan_state0_complete :
    ∀ N inner u, inner.length ≤ N → InnerSeq inner →
      parenScan 0 (inner ++ ')' :: u) = some (inner.length + 1) := by
  intro N
  induction N with
  | zero =>
    intro inner u hlen hs
    have : inner = [] := List.length_eq_zero.1 (by omega)
    subst this
    simp [parenScan_zero_rparen]
  | succ N ih =>
    intro inner u hlen hs
    cases hs with
    | nil => simp [parenScan_zero_rparen]
    | cons a b ha hb =>
      cases ha with
      | run a hne hbody =>
        rcases List.exists_cons_of_ne_nil hne with ⟨c, a', rfl⟩
        have hc : isBodyChar c = true := hbody c (by simp)
        have hrest : InnerSeq (a' ++ b) := by
          cases a' with
          | nil => simpa using hb
          | cons x xs =>
            exact InnerSeq.cons _ _
              (InnerUnit.run _ (by simp) (fun y hy => hbody y (by simp [hy]))) hb
        have hlen' : (a' ++ b).length ≤ N := by
          simp only [List.length_append, List.length_cons] at hlen ⊢
          omega
        have hstep := ih (a' ++ b) u hlen' hrest
        have hgoal : parenScan 0 (c :: (a' ++ b ++ ')' :: u)) =
            (parenScan 0 (a' ++ b ++ ')' :: u)).map (fun k => k + 1) :=
          parenScan_zero_body _ hc
        simp only [List.cons_append, List.append_assoc] at hgoal hstep ⊢
        rw [hgoal, hstep]
        simp only [Option.map_some', Option.some.injEq, List.length_cons,
          List.length_append] <;> omega
      | nested a2 hne hbody =>
        rcases List.exists_cons_of_ne_nil hne with ⟨c2, a2', rfl⟩
        have hc2 : isBodyChar c2 = true := hbody c2 (by simp)
        have hb2 : ∀ x ∈ a2', isBodyChar x := fun x hx => hbody x (by simp [hx])
        have hlenb : b.length ≤ N := by
          simp only [List.length_append, List.length_cons] at hlen
          omega
        have hstep := ih b u hlenb hb
        simp only [List.cons_append, List.append_assoc, List.singleton_append,
          List.nil_append] at hstep ⊢
        rw [parenScan_zero_lparen, parenScan_one_body _ hc2,
          parenScan_state2_walk _ hb2]
        simp only [List.nil_append, hstep, Option.map_some', Option.some.injEq,
          List.length_append, List.length_cons] <;> omega

theorem parenScan_one_nil : parenScan 1 [] = none := rfl

theorem parenScan_one_not {c : Char} (t : List Char) (hc : isBodyChar c = false) :
    parenScan 1 (c :: t) = none := by
  simp [parenScan, hc]

theorem parenScan_state0_sound :
    ∀ N t n, t.length ≤ N → parenScan 0 t = some n →
      ∃ inner u, t = inner ++ ')' :: u ∧ InnerSeq inner ∧ n = inner.length + 1 := by
  intro N
  induction N with
  | zero =>
    intro t n hlen h
    have : t = [] := List.length_eq_zero.1 (by omega)
    subst this
    simp [parenScan] at h
  | succ N ih =>
    intro t n hlen h
    match t with
    | [] => simp [parenScan] at h
    | c :: rest =>
      by_cases hc : c = ')'
      · subst hc
        rw [parenScan_zero_rparen] at h
        exact ⟨[], rest, by simp, InnerSeq.nil, by simpa using h.symm⟩
      · by_cases hcl : c = '('
        · subst hcl
          rw [parenScan_zero_lparen] at h
          rcases Option.map_eq_some'.1 h with ⟨n1, h1, hn1⟩
          match rest with
          | [] => simp [parenScan_one_nil] at h1
          | c2 :: rest2 =>
            by_cases hc2 : isBodyChar c2
            · rw [parenScan_one_body _ hc2] at h1
              rcases Option.map_eq_some'.1 h1 with ⟨n2, h2, hn2⟩
              rcases parenScan_state2_sound rest2 n2 h2 with ⟨a, u2, m, hrest2, ha, hu2, hm⟩
              have hu2len : u2.length ≤ N := by
                have := congrArg List.length hrest2
                simp only [List.length_cons, List.length_append] at hlen this
                omega
              rcases ih u2 m hu2len hu2 with ⟨inner2, u, hu2eq, hseq2, hm2⟩
              refine ⟨('(' :: (c2 :: a) ++ [')']) ++ inner2, u, ?_, ?_, ?_⟩
              · subst hrest2 hu2eq
                simp
              · exact InnerSeq.cons _ _ (InnerUnit.nested _ (by simp) (by
                  intro x hx
                  rcases List.mem_cons.1 hx with hx | hx
                  · subst hx; exact hc2
                  · exact ha x hx)) hseq2
              · simp only [List.length_append, List.length_cons, List.length_nil]
                omega
            · rw [parenScan_one_not _ (by simpa using hc2)] at h1
              cases h1
        · by_cases hb : isBodyChar c
          · rw [parenScan_zero_body _ hb] at h
            rcases Option.map_eq_some'.1 h with ⟨n1, h1, hn1⟩
            rcases ih rest n1 (by simp at hlen; omega) h1 with ⟨inner', u, heq, hseq, hn'⟩
            refine ⟨c :: inner', u, by simp [heq], ?_, ?_⟩
            · exact InnerSeq.cons [c] _ (InnerUnit.run _ (by simp) (by simpa using hb)) hseq
            · simp only [List.length_cons]
              omega
          · simp [parenScan, hc, hcl, hb] at h

/-! ### The parenthetical group and parenLen -/

theorem parenGroup_parenLen {w : List Char} (u : List Char) (h : ParenGroup w) :
    parenLen (w ++ u) = some w.length := by
  rcases h with ⟨inner, hseq, rfl⟩
  have : ('(' :: inner ++ [')']) ++ u = '(' :: (inner ++ ')' :: u) := by simp
  rw [this]
  simp only [parenLen]
  rw [parenScan_state0_complete inner.length inner u le_rfl hseq]
  simp

theorem parenLen_sound {l : List Char} {n : Nat} (h : parenLen l = some n) :
    ∃ w u, l = w ++ u ∧ w.length = n ∧ ParenGroup w := by
  match l with
  | [] => simp [parenLen] at h
  | '(' :: rest =>
    simp only [parenLen] at h
    rcases Option.map_eq_some'.1 h with ⟨k, hk, hn⟩
    rcases parenScan_state0_sound rest.length rest k le_rfl hk with
      ⟨inner, u, heq, hseq, hk'⟩
    refine ⟨'(' :: inner ++ [')'], u, by simp [heq], ?_, ⟨inner, hseq, rfl⟩⟩
    simp only [List.length_append, List.length_cons, List.length_nil]
    omega
  | c :: rest =>
    by_cases hcl : c = '('
    · subst hcl
      simp only [parenLen] at h
      rcases Option.map_eq_some'.1 h with ⟨k, hk, hn⟩
      rcases parenScan_state0_sound rest.length rest k le_rfl hk with
        ⟨inner, u, heq, hseq, hk'⟩
      refine ⟨'(' :: inner ++ [')'], u, by simp [heq], ?_, ⟨inner, hseq, rfl⟩⟩
      simp only [List.length_append, List.length_cons, List.length_nil]
      omega
    · rw [show parenLen (c :: rest) = none by simp [parenLen, hcl]] at h
      cases h

theorem parenLen_bounds {l : List Char} {n : Nat} (h : parenLen l = some n) :
    2 ≤ n ∧ n ≤ l.length := by
  rcases parenLen_sound h with ⟨w, u, rfl, hlen, hg⟩
  rcases hg with ⟨inner, -, rfl⟩
  constructor
  · simp only [← hlen, List.length_append, List.length_cons, List.length_nil]
    omega
  · simp only [← hlen, List.length_append]
    omega

theorem parenGroup_prefix_unique {w1 w2 u1 u2 : List Char}
    (h1 : ParenGroup w1) (h2 : ParenGroup w2) (heq : w1 ++ u1 = w2 ++ u2) :
    w1 = w2 := by
  have e1 : parenLen (w1 ++ u1) = some w1.length := parenGroup_parenLen u1 h1
  have e2 : parenLen (w2 ++ u2) = some w2.length := parenGroup_parenLen u2 h2
  rw [heq] at e1
  rw [e2] at e1
  have hl : w1.length = w2.length := by
    injection e1 with e
    omega
  calc w1 = (w1 ++ u1).take w1.length := by rw [List.take_left]
  _ = (w2 ++ u2).take w2.length := by rw [heq, hl]
  _ = w2 := by rw [List.take_left]

/-! ### The chain of body-unit boundaries -/

theorem chainStep_nil : chainStep [] = none := rfl

theorem chainStep_body {c : Char} (t : List Char) (hc : isBodyChar c = true) :
    chainStep (c :: t) = some 1 := by
  simp [chainStep, ne_lparen_of_body hc, hc]

theorem chainStep_lparen (t : List Char) :
    chainStep ('(' :: t) = parenLen ('(' :: t) := by
  simp [chainStep]

theorem chainStep_dead {c : Char} (t : List Char) (hc : isBodyChar c = false)
    (hcl : c ≠ '(') : chainStep (c :: t) = none := by
  simp [chainStep, hc, hcl]

theorem chainStep_pos {l : List Char} {s : Nat} (h : chainStep l = some s) :
    1 ≤ s ∧ s ≤ l.length := by
  match l with
  | [] => cases h
  | c :: t =>
    by_cases hcl : c = '('
    · subst hcl
      rw [chainStep_lparen] at h
      have := parenLen_bounds h
      omega
    · by_cases hb : isBodyChar c
      · rw [chainStep_body t hb] at h
        injection h with h
        subst h
        simp
      · rw [chainStep_dead t (by simpa using hb) hcl] at h
        cases h

/-! ### Options -/

theorem opt_none_orElse (b : Option Nat) : (none <|> b) = b := rfl

theorem opt_some_orElse (x : Nat) (b : Option Nat) : (some x <|> b) = some x := rfl

theorem opt_orElse_none (a : Option Nat) : (a <|> none) = a := by
  cases a <;> rfl

theorem opt_orElse_assoc (a b c : Option Nat) :
    ((a <|> b) <|> c) = (a <|> (b <|> c)) := by
  cases a <;> rfl

theorem opt_orElse_absorb (a y b : Option Nat) :
    (a <|> ((a <|> y) <|> b)) = ((a <|> y) <|> b) := by
  cases a <;> rfl

theorem opt_map_orElse (f : Nat → Nat) (a b : Option Nat) :
    (a <|> b).map f = (a.map f <|> b.map f) := by
  cases a <;> rfl

/-! ### Unfolding the chain walk -/

theorem bodySearchK_none {l : List Char} (k : List Char → Option Nat)
    (h : chainStep l = none) : bodySearchK k l = none := by
  rw [bodySearchK, h]

theorem bodySearchK_some {l : List Char} {s : Nat} (k : List Char → Option Nat)
    (h : chainStep l = some s) :
    bodySearchK k l =
      ((bodySearchK k (l.drop s)).map (fun r => s + r) <|>
        (k (l.drop s)).map (fun f => s + f)) := by
  rw [bodySearchK, h]
  cases hb : bodySearchK k (l.drop s) <;> simp [hb]

theorem bodySearchK_nil (k : List Char → Option Nat) : bodySearchK k [] = none :=
  bodySearchK_none k chainStep_nil

theorem bodySearchK_body_step {c : Char} (t : List Char) (k : List Char → Option Nat)
    (hc : isBodyChar c = true) :
    bodySearchK k (c :: t) =
      ((bodySearchK k t).map (fun r => 1 + r) <|> (k t).map (fun f => 1 + f)) := by
  rw [bodySearchK_some k (chainStep_body t hc)]
  rfl

/-! ### Structure of body segments -/

theorem bodyUnit_ne_nil {w : List Char} (h : BodyUnit w) : w ≠ [] := by
  rcases h with ⟨hne, -⟩ | ⟨inner, -, rfl⟩
  · exact hne
  · simp

theorem bodySeg_ne_nil {w : List Char} (h : BodySeg w) : w ≠ [] := by
  cases h with
  | one w hw => exact bodyUnit_ne_nil hw
  | cons w v hw hseg =>
    intro hc
    exact bodyUnit_ne_nil hw (List.append_eq_nil.1 hc).1

theorem bodySeg_inv {u : List Char} (h : BodySeg u) :
    BodyUnit u ∨ ∃ w v, u = w ++ v ∧ BodyUnit w ∧ BodySeg v := by
  cases h with
  | one w hw => exact Or.inl hw
  | cons w v hw hseg => exact Or.inr ⟨w, v, rfl, hw, hseg⟩

theorem bodyUnit_head {c : Char} {w' : List Char} (h : BodyUnit (c :: w')) :
    isBodyChar c = true ∨ c = '(' := by
  rcases h with ⟨-, hall⟩ | ⟨inner, -, heq⟩
  · exact Or.inl (hall c (by simp))
  · exact Or.inr (by injection heq)

theorem bodySeg_head {c : Char} {w' : List Char} (h : BodySeg (c :: w')) :
    isBodyChar c = true ∨ c = '(' := by
  rcases bodySeg_inv h with hu | ⟨w, v, heq, hw, hseg⟩
  · exact bodyUnit_head hu
  · rcases List.exists_cons_of_ne_nil (bodyUnit_ne_nil hw) with ⟨a, w2, rfl⟩
    rw [List.cons_append] at heq
    injection heq with h1 h2
    subst h1
    exact bodyUnit_head hw

theorem bodySeg_cons_body {c : Char} {v : List Char} (hc : isBodyChar c = true)
    (h : BodySeg (c :: v)) : v = [] ∨ BodySeg v := by
  rcases bodySeg_inv h with hu | ⟨w, v', heq, hw, hseg⟩
  · rcases hu with ⟨-, hall⟩ | ⟨inner, -, heq⟩
    · cases v with
      | nil => exact Or.inl rfl
      | cons d v' =>
        exact Or.inr (BodySeg.one _ (Or.inl ⟨by simp,
          fun x hx => hall x (by simp [hx])⟩))
    · exfalso
      have hcp : c = '(' := by injection heq
      rw [hcp, isBodyChar_lparen] at hc
      cases hc
  · rcases List.exists_cons_of_ne_nil (bodyUnit_ne_nil hw) with ⟨a, w2, rfl⟩
    rw [List.cons_append] at heq
    injection heq with h1 h2
    subst h1
    subst h2
    rcases hw with ⟨-, hall⟩ | ⟨inner, -, heqp⟩
    · cases w2 with
      | nil => exact Or.inr (by simpa using hseg)
      | cons d w3 =>
        refine Or.inr (BodySeg.cons _ _ (Or.inl ⟨by simp,
          fun x hx => hall x (by simp [hx])⟩) hseg)
    · exfalso
      have hcp : c = '(' := by injection heqp
      rw [hcp, isBodyChar_lparen] at hc
      cases hc

theorem bodySeg_cons_of {c : Char} {v : List Char} (hc : isBodyChar c = true)
    (h : v = [] ∨ BodySeg v) : BodySeg (c :: v) := by
  rcases h with rfl | hseg
  · exact BodySeg.one _ (Or.inl ⟨by simp, by simpa using hc⟩)
  · exact BodySeg.cons [c] v (Or.inl ⟨by simp, by simpa using hc⟩) hseg

theorem bodySeg_lparen_split {v : List Char} (h : BodySeg ('(' :: v)) :
    ∃ w v', '(' :: v = w ++ v' ∧ ParenGroup w ∧ (v' = [] ∨ BodySeg v') := by
  rcases bodySeg_inv h with hu | ⟨w, v', heq, hw, hseg⟩
  · rcases hu with ⟨-, hall⟩ | hp
    · exact absurd (hall '(' (by simp)) (by simp [isBodyChar_lparen])
    · exact ⟨'(' :: v, [], by simp, hp, Or.inl rfl⟩
  · rcases List.exists_cons_of_ne_nil (bodyUnit_ne_nil hw) with ⟨a, w2, rfl⟩
    rw [List.cons_append] at heq
    injection heq with h1 h2
    subst h1
    subst h2
    rcases hw with ⟨-, hall⟩ | hp
    · exact absurd (hall '(' (by simp)) (by simp [isBodyChar_lparen])
    · exact ⟨'(' :: w2, v', by simp, hp, Or.inr hseg⟩

theorem bodySeg_paren_cons {w v : List Char} (hg : ParenGroup w)
    (h : v = [] ∨ BodySeg v) : BodySeg (w ++ v) := by
  rcases h with rfl | hseg
  · exact BodySeg.one _ (Or.inr (by simpa using hg))
  · exact BodySeg.cons w v (Or.inr hg) hseg

theorem bodySeg_dead {c : Char} {v : List Char} (hb : isBodyChar c = false)
    (hcl : c ≠ '(') : ¬ BodySeg (c :: v) := by
  intro h
  rcases bodySeg_head h with hx | hx
  · rw [hb] at hx; cases hx
  · exact hcl hx

/-! ### The final element and tryFinal -/

theorem tryFinal_cons (c : Char) (t : List Char) :
    tryFinal (c :: t) =
      if c = '(' then parenLen (c :: t)
      else if isBannedFinal c then none else some 1 := rfl

theorem finalSeg_tryFinal {f : List Char} (u : List Char) (h : FinalSeg f) :
    tryFinal (f ++ u) = some f.length := by
  rcases h with hp | ⟨ch, rfl, hb⟩
  · rcases hp with ⟨inner, hseq, rfl⟩
    rw [show ('(' :: inner ++ [')']) ++ u = '(' :: (inner ++ [')'] ++ u) by simp]
    rw [tryFinal_cons, if_pos rfl]
    have := parenGroup_parenLen u (⟨inner, hseq, rfl⟩ : ParenGroup ('(' :: inner ++ [')']))
    rw [show ('(' :: inner ++ [')']) ++ u = '(' :: (inner ++ [')'] ++ u) by simp] at this
    rw [this]
  · have hne : ch ≠ '(' := by
      intro hc; rw [hc, isBannedFinal_lparen] at hb; cases hb
    rw [List.singleton_append, tryFinal_cons, if_neg hne, if_neg (by simp [hb])]
    simp

theorem tryFinal_sound {l : List Char} {n : Nat} (h : tryFinal l = some n) :
    ∃ f u, l = f ++ u ∧ f.length = n ∧ FinalSeg f := by
  match l with
  | [] => cases h
  | c :: t =>
    rw [tryFinal_cons] at h
    by_cases hcl : c = '('
    · rw [if_pos hcl] at h
      rcases parenLen_sound h with ⟨w, u, heq, hlen, hg⟩
      exact ⟨w, u, heq, hlen, Or.inl hg⟩
    · rw [if_neg hcl] at h
      by_cases hb : isBannedFinal c
      · rw [if_pos hb] at h; cases h
      · rw [if_neg hb] at h
        injection h with h
        exact ⟨[c], t, rfl, by simpa using h, Or.inr ⟨c, rfl, by simpa using hb⟩⟩

theorem tryFinal_pos {l : List Char} {n : Nat} (h : tryFinal l = some n) :
    1 ≤ n ∧ n ≤ l.length := by
  rcases tryFinal_sound h with ⟨f, u, rfl, hlen, hf⟩
  have hne : f ≠ [] := by
    rcases hf with ⟨inner, -, rfl⟩ | ⟨ch, rfl, -⟩ <;> simp
  constructor
  · rcases List.exists_cons_of_ne_nil hne with ⟨a, f', rfl⟩
    simp only [← hlen, List.length_cons]
    omega
  · simp only [← hlen, List.length_append]
    omega

/-! ### Soundness, completeness and maximality of the chain walk -/

theorem parenGroup_head {w : List Char} (h : ParenGroup w) : ∃ t, w = '(' :: t := by
  rcases h with ⟨inner, -, rfl⟩
  exact ⟨inner ++ [')'], rfl⟩

theorem chainStep_of_parenGroup {w : List Char} (u : List Char) (hg : ParenGroup w) :
    chainStep (w ++ u) = some w.length := by
  rcases parenGroup_head hg with ⟨t, rfl⟩
  rw [List.cons_append, chainStep_lparen, ← List.cons_append]
  exact parenGroup_parenLen u hg

theorem chainStep_cases {l : List Char} {s : Nat} (h : chainStep l = some s) :
    (∃ c t, l = c :: t ∧ isBodyChar c = true ∧ s = 1) ∨
    (∃ w u, l = w ++ u ∧ ParenGroup w ∧ w.length = s) := by
  match l with
  | [] => cases h
  | c :: t =>
    by_cases hcl : c = '('
    · subst hcl
      rw [chainStep_lparen] at h
      rcases parenLen_sound h with ⟨w, u, heq, hlen, hg⟩
      exact Or.inr ⟨w, u, heq, hg, hlen⟩
    · by_cases hb : isBodyChar c
      · rw [chainStep_body t hb] at h
        injection h with h
        exact Or.inl ⟨c, t, rfl, hb, h.symm⟩
      · rw [chainStep_dead t (by simpa using hb) hcl] at h
        cases h

theorem bodySearchK_pos {l : List Char} {r : Nat}
    (h : bodySearchK tryFinal l = some r) : 1 ≤ r := by
  rcases hcs : chainStep l with _ | s
  · rw [bodySearchK_none _ hcs] at h; cases h
  · rw [bodySearchK_some _ hcs] at h
    have hs := (chainStep_pos hcs).1
    rcases hb : bodySearchK tryFinal (l.drop s) with _ | r'
    · rw [hb] at h
      simp only [Option.map_none', opt_none_orElse] at h
      rcases Option.map_eq_some'.1 h with ⟨f, hf, hr⟩
      omega
    · rw [hb] at h
      simp only [Option.map_some', opt_some_orElse, Option.some.injEq] at h
      omega

theorem bodySearchK_lb {l : List Char} {r s : Nat}
    (h : bodySearchK tryFinal l = some r) (hcs : chainStep l = some s) :
    s + 1 ≤ r := by
  rw [bodySearchK_some _ hcs] at h
  rcases hb : bodySearchK tryFinal (l.drop s) with _ | r'
  · rw [hb] at h
    simp only [Option.map_none', opt_none_orElse] at h
    rcases Option.map_eq_some'.1 h with ⟨f, hf, hr⟩
    have := (tryFinal_pos hf).1
    omega
  · rw [hb] at h
    simp only [Option.map_some', opt_some_orElse, Option.some.injEq] at h
    have := bodySearchK_pos hb
    omega

theorem bodyFinal_sound :
    ∀ N l r, l.length ≤ N → bodySearchK tryFinal l = some r →
      ∃ b f u, l = b ++ f ++ u ∧ BodySeg b ∧ FinalSeg f ∧ r = b.length + f.length := by
  intro N
  induction N with
  | zero =>
    intro l r hlen h
    have : l = [] := List.length_eq_zero.1 (by omega)
    subst this
    rw [bodySearchK_nil] at h
    cases h
  | succ N ih =>
    intro l r hlen h
    rcases hcs : chainStep l with _ | s
    · rw [bodySearchK_none _ hcs] at h; cases h
    · rw [bodySearchK_some _ hcs] at h
      have hspos := chainStep_pos hcs
      have hdroplen : (l.drop s).length ≤ N := by
        simp only [List.length_drop]
        omega
      rcases hb : bodySearchK tryFinal (l.drop s) with _ | r'
      · rw [hb] at h
        simp only [Option.map_none', opt_none_orElse] at h
        rcases Option.map_eq_some'.1 h with ⟨fv, hf, hr⟩
        rcases tryFinal_sound hf with ⟨f, u, hdeq, hflen, hfs⟩
        rcases chainStep_cases hcs with ⟨c, t, rfl, hcb, rfl⟩ | ⟨w, u0, heqw, hg, hwlen⟩
        · simp only [List.drop_succ_cons, List.drop_zero] at hdeq
          refine ⟨[c], f, u, ?_, BodySeg.one _ (Or.inl ⟨by simp, by simpa using hcb⟩),
            hfs, ?_⟩
          · rw [hdeq]; rfl
          · simp only [List.length_singleton]
            omega
        · subst heqw
          rw [← hwlen, List.drop_left] at hdeq
          refine ⟨w, f, u, ?_, BodySeg.one _ (Or.inr hg), hfs, ?_⟩
          · rw [hdeq, List.append_assoc]
          · omega
      · rw [hb] at h
        simp only [Option.map_some', opt_some_orElse, Option.some.injEq] at h
        rcases ih (l.drop s) r' hdroplen hb with ⟨b', f, u, hdeq, hbs, hfs, hr'⟩
        rcases chainStep_cases hcs with ⟨c, t, rfl, hcb, rfl⟩ | ⟨w, u0, heqw, hg, hwlen⟩
        · simp only [List.drop_succ_cons, List.drop_zero] at hdeq
          refine ⟨c :: b', f, u, ?_, bodySeg_cons_of hcb (Or.inr hbs), hfs, ?_⟩
          · rw [hdeq]; rfl
          · simp only [List.length_cons]
            omega
        · subst heqw
          rw [← hwlen, List.drop_left] at hdeq
          refine ⟨w ++ b', f, u, ?_, bodySeg_paren_cons hg (Or.inr hbs), hfs, ?_⟩
          · rw [hdeq]
            simp [List.append_assoc]
          · simp only [List.length_append]
            omega

theorem bodyFinal_complete :
    ∀ N l, l.length ≤ N → ∀ b f u, l = b ++ f ++ u → BodySeg b → FinalSeg f →
      ∃ r, bodySearchK tryFinal l = some r := by
  intro N
  induction N with
  | zero =>
    intro l hlen b f u heq hbs hfs
    have hl : l = [] := List.length_eq_zero.1 (by omega)
    subst hl
    have hb := bodySeg_ne_nil hbs
    rcases List.append_eq_nil.1 (List.append_eq_nil.1 heq.symm).1 with ⟨h1, -⟩
    exact absurd h1 hb
  | succ N ih =>
    intro l hlen b f u heq hbs hfs
    rcases List.exists_cons_of_ne_nil (bodySeg_ne_nil hbs) with ⟨cb, b2, rfl⟩
    rcases bodySeg_head hbs with hcb | hcb
    · -- plain first character
      rcases bodySeg_cons_body hcb hbs with hb2 | hb2
      · subst hb2
        subst heq
        have hshape : ([cb] ++ f ++ u) = cb :: (f ++ u) := by simp
        rw [hshape]
        have hcs : chainStep (cb :: (f ++ u)) = some 1 := chainStep_body _ hcb
        rw [bodySearchK_some tryFinal hcs]
        have hdrop : (cb :: (f ++ u)).drop 1 = f ++ u := by simp
        rw [hdrop, finalSeg_tryFinal u hfs]
        rcases hbk : bodySearchK tryFinal (f ++ u) with _ | r'
        · exact ⟨1 + f.length, by simp⟩
        · exact ⟨1 + r', by simp⟩
      · subst heq
        have hcs : chainStep (cb :: b2 ++ f ++ u) = some 1 := by
          rw [List.cons_append, List.cons_append]
          exact chainStep_body _ hcb
        rw [bodySearchK_some tryFinal hcs]
        have hdrop : ((cb :: b2) ++ f ++ u).drop 1 = b2 ++ f ++ u := by simp
        rw [hdrop]
        have hlen2 : (b2 ++ f ++ u).length ≤ N := by
          simp only [List.length_append, List.length_cons] at hlen ⊢
          omega
        rcases ih (b2 ++ f ++ u) hlen2 b2 f u rfl hb2 hfs with ⟨r', hr'⟩
        rw [hr']
        exact ⟨1 + r', by simp⟩
    · -- parenthetical first unit
      subst hcb
      rcases bodySeg_lparen_split hbs with ⟨w, v', heqb, hg, hrest⟩
      have heql : l = w ++ (v' ++ f ++ u) := by
        rw [heq, heqb]
        simp [List.append_assoc]
      have hcs : chainStep l = some w.length := by
        rw [heql]; exact chainStep_of_parenGroup _ hg
      rw [bodySearchK_some tryFinal hcs]
      have hdrop : l.drop w.length = v' ++ f ++ u := by
        rw [heql, List.drop_left]
      rw [hdrop]
      have hwpos : 0 < w.length := by
        rcases parenGroup_head hg with ⟨t, rfl⟩
        simp
      rcases hrest with hv | hv
      · subst hv
        simp only [List.nil_append]
        rw [finalSeg_tryFinal u hfs]
        rcases hbk : bodySearchK tryFinal (f ++ u) with _ | r'
        · exact ⟨w.length + f.length, by simp⟩
        · exact ⟨w.length + r', by simp⟩
      · have hlen2 : (v' ++ f ++ u).length ≤ N := by
          have := congrArg List.length heql
          simp only [List.length_append] at this hlen ⊢
          omega
        rcases ih (v' ++ f ++ u) hlen2 v' f u rfl hv hfs with ⟨r', hr'⟩
        rw [hr']
        exact ⟨w.length + r', by simp⟩

theorem bodyFinal_max :
    ∀ N l r, l.length ≤ N → bodySearchK tryFinal l = some r →
      ∀ b f u, l = b ++ f ++ u → BodySeg b → FinalSeg f →
        b.length + f.length ≤ r := by
  intro N
  induction N with
  | zero =>
    intro l r hlen h b f u heq hbs hfs
    have hl : l = [] := List.length_eq_zero.1 (by omega)
    subst hl
    rw [bodySearchK_nil] at h
    cases h
  | succ N ih =>
    intro l r hlen h b f u heq hbs hfs
    rcases List.exists_cons_of_ne_nil (bodySeg_ne_nil hbs) with ⟨cb, b2, rfl⟩
    rcases bodySeg_head hbs with hcb | hcb
    · -- plain first character
      subst heq
      have hcs : chainStep ((cb :: b2) ++ f ++ u) = some 1 := by
        rw [List.cons_append, List.cons_append]
        exact chainStep_body _ hcb
      rw [bodySearchK_some tryFinal hcs] at h
      have hdrop : ((cb :: b2) ++ f ++ u).drop 1 = b2 ++ f ++ u := by simp
      rw [hdrop] at h
      have hlen2 : (b2 ++ f ++ u).length ≤ N := by
        simp only [List.length_append, List.length_cons] at hlen ⊢
        omega
      rcases bodySeg_cons_body hcb hbs with hb2 | hb2
      · subst hb2
        simp only [List.nil_append] at h
        rw [finalSeg_tryFinal u hfs] at h
        rcases hbk : bodySearchK tryFinal (f ++ u) with _ | r'
        · rw [hbk] at h
          simp only [Option.map_none', opt_none_orElse, Option.map_some',
            Option.some.injEq] at h
          simp only [List.length_singleton]
          omega
        · rw [hbk] at h
          simp only [Option.map_some', opt_some_orElse, Option.some.injEq] at h
          have hfr : f.length ≤ r' := by
            rcases hfs with hp | ⟨ch, rfl, -⟩
            · have hcs2 : chainStep (f ++ u) = some f.length :=
                chainStep_of_parenGroup _ hp
              have := bodySearchK_lb hbk hcs2
              omega
            · have := bodySearchK_pos hbk
              simp only [List.length_singleton]
              omega
          simp only [List.length_singleton]
          omega
      · rcases hbk : bodySearchK tryFinal (b2 ++ f ++ u) with _ | r'
        · exfalso
          rcases bodyFinal_complete N (b2 ++ f ++ u) hlen2 b2 f u rfl hb2 hfs with ⟨r', hr'⟩
          rw [hbk] at hr'
          cases hr'
        · rw [hbk] at h
          simp only [Option.map_some', opt_some_orElse, Option.some.injEq] at h
          have := ih (b2 ++ f ++ u) r' hlen2 hbk b2 f u rfl hb2 hfs
          simp only [List.length_cons]
          omega
    · -- parenthetical first unit
      subst hcb
      rcases bodySeg_lparen_split hbs with ⟨w, v', heqb, hg, hrest⟩
      have heql : l = w ++ (v' ++ f ++ u) := by
        rw [heq, heqb]
        simp [List.append_assoc]
      have hcs : chainStep l = some w.length := by
        rw [heql]; exact chainStep_of_parenGroup _ hg
      rw [bodySearchK_some tryFinal hcs] at h
      have hdrop : l.drop w.length = v' ++ f ++ u := by
        rw [heql, List.drop_left]
      rw [hdrop] at h
      have hwpos : 0 < w.length := by
        rcases parenGroup_head hg with ⟨t, rfl⟩
        simp
      have hblen : ('(' :: b2).length = w.length + v'.length := by
        rw [heqb]
        simp
      have hlen2 : (v' ++ f ++ u).length ≤ N := by
        have := congrArg List.length heql
        simp only [List.length_append] at this hlen ⊢
        omega
      rcases hrest with hv | hv
      · subst hv
        simp only [List.nil_append] at h
        rw [finalSeg_tryFinal u hfs] at h
        rcases hbk : bodySearchK tryFinal (f ++ u) with _ | r'
        · rw [hbk] at h
          simp only [Option.map_none', opt_none_orElse, Option.map_some',
            Option.some.injEq] at h
          simp only [hblen, List.length_nil]
          omega
        · rw [hbk] at h
          simp only [Option.map_some', opt_some_orElse, Option.some.injEq] at h
          have hfr : f.length ≤ r' := by
            rcases hfs with hp | ⟨ch, rfl, -⟩
            · have hcs2 : chainStep (f ++ u) = some f.length :=
                chainStep_of_parenGroup _ hp
              have := bodySearchK_lb hbk hcs2
              omega
            · have := bodySearchK_pos hbk
              simp only [List.length_singleton]
              omega
          simp only [hblen, List.length_nil]
          omega
      · rcases hbk : bodySearchK tryFinal (v' ++ f ++ u) with _ | r'
        · exfalso
          rcases bodyFinal_complete N (v' ++ f ++ u) hlen2 v' f u rfl hv hfs with ⟨r', hr'⟩
          rw [hbk] at hr'
          cases hr'
        · rw [hbk] at h
          simp only [Option.map_some', opt_some_orElse, Option.some.injEq] at h
          have := ih (v' ++ f ++ u) r' hlen2 hbk v' f u rfl hv hfs
          simp only [hblen]
          omega

/-! ### The backtracking search agrees with the chain walk -/

theorem opt_orElse_idem (a y : Option Nat) : (a <|> (a <|> y)) = (a <|> y) := by
  cases a <;> rfl

theorem tryGo_empty (k : List Char → Option Nat) (fuel : Nat) (l : List Char) :
    tryGo k fuel l [] = none := by
  cases fuel <;> rfl

theorem tryGo_cons (k : List Char → Option Nat) (fuel : Nat) (l : List Char)
    (c : Nat) (cs : List Nat) :
    tryGo k (fuel + 1) l (c :: cs) =
      (((tryGo k fuel (l.drop c) (unitChoices (l.drop c))).map (fun r => c + r) <|>
        (k (l.drop c)).map (fun r => c + r)) <|> tryGo k fuel l cs) := rfl

theorem needFuel_succ (n : Nat) : needFuel (n + 1) = needFuel n + n + 1 := rfl

theorem needFuel_pos (n : Nat) : 1 ≤ needFuel n := by
  induction n with
  | zero => simp [needFuel]
  | succ n ih => rw [needFuel_succ]; omega

theorem needFuel_mono {m n : Nat} (h : m ≤ n) : needFuel m ≤ needFuel n := by
  induction n with
  | zero =>
    have hm : m = 0 := by omega
    subst hm; exact le_refl _
  | succ n ih =>
    rcases Nat.lt_or_ge m (n + 1) with hlt | hge
    · have h2 := ih (by omega)
      rw [needFuel_succ]
      omega
    · have hm : m = n + 1 := by omega
      subst hm; exact le_refl _

theorem unitChoices_nil : unitChoices [] = [] := rfl

theorem unitChoices_dead {c : Char} (t : List Char) (hb : isBodyChar c = false)
    (hcl : c ≠ '(') : unitChoices (c :: t) = [] := by
  simp [unitChoices, hb, hcl]

theorem unitChoices_lparen (t : List Char) :
    unitChoices ('(' :: t) =
      (match parenLen ('(' :: t) with
       | some n => [n]
       | none => []) := by
  simp [unitChoices]

theorem unitChoices_body {c : Char} (t : List Char) (hc : isBodyChar c = true) :
    unitChoices (c :: t) =
      (List.range (runLen (c :: t))).map (fun i => runLen (c :: t) - i) := by
  simp [unitChoices, ne_lparen_of_body hc, hc]

theorem drop_succ_of_drop {l : List Char} {i : Nat} {ch : Char} {t : List Char}
    (h : l.drop i = ch :: t) : l.drop (i + 1) = t := by
  have h2 : List.drop 1 (List.drop i l) = List.drop (i + 1) l := List.drop_drop 1 i l
  rw [← h2, h]
  rfl

theorem searchBranch_step {k : List Char → Option Nat} {l : List Char} {i : Nat}
    (h2 : i < runLen l) :
    searchBranch k l i =
      (searchBranch k l (i + 1) <|> (k (l.drop i)).map (fun r => i + r)) := by
  obtain ⟨ch, t', hdi, hch⟩ := drop_head_body h2
  have ht' : l.drop (i + 1) = t' := drop_succ_of_drop hdi
  rw [searchBranch, searchBranch, ht', hdi, bodySearchK_body_step t' k hch]
  rcases bodySearchK k t' with _ | r <;> rcases k t' with _ | f <;>
    simp [Option.map_map, Function.comp, Nat.add_assoc]

theorem searchBranch_chain (k : List Char → Option Nat) (l : List Char) :
    ∀ d i j, i + d = j → 1 ≤ i → j ≤ runLen l →
      ∃ y, searchBranch k l i = (searchBranch k l j <|> y) := by
  intro d
  induction d with
  | zero =>
    intro i j heq h1 hj
    subst heq
    exact ⟨none, by rw [opt_orElse_none, Nat.add_zero]⟩
  | succ d ihd =>
    intro i j heq h1 hj
    have hi : i < runLen l := by omega
    obtain ⟨y', hy'⟩ := ihd (i + 1) j (by omega) (by omega) hj
    refine ⟨y' <|> (k (l.drop i)).map (fun r => i + r), ?_⟩
    rw [searchBranch_step hi, hy', opt_orElse_assoc]

theorem searchBranch_absorb {k : List Char → Option Nat} {l : List Char} {i j : Nat}
    (h1 : 1 ≤ i) (hij : i ≤ j) (hj : j ≤ runLen l) :
    (searchBranch k l j <|> searchBranch k l i) = searchBranch k l i := by
  obtain ⟨y, hy⟩ := searchBranch_chain k l (j - i) i j (by omega) h1 hj
  rw [hy, opt_orElse_idem]

theorem range_desc_succ (j : Nat) :
    (List.range (j + 1)).map (fun i => (j + 1) - i) =
      (j + 1) :: (List.range j).map (fun i => j - i) := by
  rw [List.range_succ_eq_map]
  simp only [List.map_cons, Nat.sub_zero, List.map_map]
  congr 1
  have : ((fun i => (j + 1) - i) ∘ Nat.succ) = (fun i => j - i) := by
    funext i
    simp only [Function.comp]
    omega
  rw [this]

theorem tryGo_run (k : List Char → Option Nat) (l : List Char)
    (hIH : ∀ c f', 1 ≤ c → c ≤ runLen l → needFuel (l.length - c) ≤ f' →
      tryGo k f' (l.drop c) (unitChoices (l.drop c)) = bodySearchK k (l.drop c)) :
    ∀ j, 1 ≤ j → j ≤ runLen l → ∀ fuel, needFuel (l.length - 1) + j ≤ fuel →
      tryGo k fuel l ((List.range j).map (fun i => j - i)) = searchBranch k l 1 := by
  intro j
  induction j with
  | zero => intro h1; omega
  | succ j ihj =>
    intro h1 hj fuel hf
    cases fuel with
    | zero =>
      exfalso
      have := needFuel_pos (l.length - 1)
      omega
    | succ f =>
      have hf1 : needFuel (l.length - (j + 1)) ≤ f := by
        have hm : needFuel (l.length - (j + 1)) ≤ needFuel (l.length - 1) :=
          needFuel_mono (by omega)
        omega
      rw [range_desc_succ, tryGo_cons, hIH (j + 1) f (by omega) hj hf1]
      cases j with
      | zero =>
        rw [show ((List.range 0).map (fun i => 0 - i)) = [] by simp, tryGo_empty,
          opt_orElse_none]
        rfl
      | succ j' =>
        rw [ihj (by omega) (by omega) f (by omega)]
        exact searchBranch_absorb (by omega) (by omega) hj

theorem tryGo_eq_search :
    ∀ N l, l.length ≤ N → ∀ fuel, needFuel l.length ≤ fuel →
      ∀ k, tryGo k fuel l (unitChoices l) = bodySearchK k l := by
  intro N
  induction N with
  | zero =>
    intro l hlen fuel hfuel k
    have : l = [] := List.length_eq_zero.1 (by omega)
    subst this
    rw [unitChoices_nil, tryGo_empty, bodySearchK_nil]
  | succ N ihN =>
    intro l hlen fuel hfuel k
    match l with
    | [] => rw [unitChoices_nil, tryGo_empty, bodySearchK_nil]
    | c :: t =>
      have hfs : needFuel t.length + t.length + 1 ≤ fuel := by
        have h := hfuel
        simp only [List.length_cons] at h
        rw [needFuel_succ] at h
        exact h
      by_cases hcl : c = '('
      · subst hcl
        rcases hpl : parenLen ('(' :: t) with _ | g
        · rw [unitChoices_lparen, hpl, tryGo_empty,
            @bodySearchK_none ('(' :: t) k (by rw [chainStep_lparen, hpl])]
        · cases fuel with
          | zero => omega
          | succ f =>
            have hg := parenLen_bounds hpl
            have hdl : (('(' :: t).drop g).length ≤ N := by
              simp only [List.length_drop, List.length_cons] at *
              omega
            have hdf : needFuel (('(' :: t).drop g).length ≤ f := by
              have hm : (('(' :: t).drop g).length ≤ t.length := by
                simp only [List.length_drop, List.length_cons]
                omega
              have := needFuel_mono hm
              omega
            rw [unitChoices_lparen, hpl, tryGo_cons, tryGo_empty, opt_orElse_none,
              ihN _ hdl f hdf k,
              @bodySearchK_some ('(' :: t) g k (by rw [chainStep_lparen, hpl])]
      · by_cases hb : isBodyChar c
        · have hr1 : 1 ≤ runLen (c :: t) := runLen_pos hb
          have hIH : ∀ c' f', 1 ≤ c' → c' ≤ runLen (c :: t) →
              needFuel ((c :: t).length - c') ≤ f' →
              tryGo k f' ((c :: t).drop c') (unitChoices ((c :: t).drop c')) =
                bodySearchK k ((c :: t).drop c') := by
            intro c' f' h1 h2 hf'
            have hrle := runLen_le (c :: t)
            apply ihN
            · simp only [List.length_drop, List.length_cons] at *
              omega
            · simp only [List.length_drop]
              exact hf'
          have hfr : needFuel ((c :: t).length - 1) + runLen (c :: t) ≤ fuel := by
            have hrle := runLen_le (c :: t)
            simp only [List.length_cons] at hrle ⊢
            simp only [Nat.add_sub_cancel]
            omega
          rw [unitChoices_body t hb,
            tryGo_run k (c :: t) hIH (runLen (c :: t)) hr1 le_rfl fuel hfr,
            bodySearchK_some k (chainStep_body t hb)]
          rfl
        · rw [unitChoices_dead t (by simpa using hb) hcl, tryGo_empty,
            bodySearchK_none k (chainStep_dead t (by simpa using hb) hcl)]

theorem bodyFinalGo_eq (l : List Char) : bodyFinalGo l = bodySearchK tryFinal l :=
  tryGo_eq_search l.length l le_rfl (goFuel l) (Nat.le_add_right _ _) tryFinal

/-! ### The scheme and the whole pattern -/

theorem schemeLitLen_sound {l : List Char} {p : Nat} (h : schemeLitLen l = some p) :
    ∃ lit u, l = lit ++ u ∧ lit.length = p ∧ LitHttp lit := by
  match l with
  | [] => cases h
  | [c1] => cases h
  | [c1, c2] => cases h
  | [c1, c2, c3] => cases h
  | [c1, c2, c3, c4] => cases h
  | c1 :: c2 :: c3 :: c4 :: c5 :: rest =>
    simp only [schemeLitLen] at h
    by_cases h4 : foldH c1 && foldT c2 && foldT c3 && foldP c4
    · rw [if_pos h4] at h
      simp only [Bool.and_eq_true] at h4
      obtain ⟨⟨⟨hH, hT1⟩, hT2⟩, hP⟩ := h4
      by_cases h5 : foldS c5
      · rw [if_pos h5] at h
        rcases rest with _ | ⟨c6, rest2⟩
        · simp at h
        · simp only [] at h
          by_cases h6 : c6 == ':'
          · rw [if_pos h6] at h
            injection h with h
            have hc6 : c6 = ':' := by simpa using h6
            subst hc6
            refine ⟨[c1, c2, c3, c4, c5, ':'], rest2, by simp, by simp; omega,
              Or.inr ⟨c1, c2, c3, c4, c5, rfl, hH, hT1, hT2, hP, h5⟩⟩
          · rw [if_neg h6] at h
            cases h
      · rw [if_neg h5] at h
        by_cases h5c : c5 == ':'
        · rw [if_pos h5c] at h
          injection h with h
          have hc5 : c5 = ':' := by simpa using h5c
          subst hc5
          refine ⟨[c1, c2, c3, c4, ':'], rest, by simp, by simp; omega,
            Or.inl ⟨c1, c2, c3, c4, rfl, hH, hT1, hT2, hP⟩⟩
        · rw [if_neg h5c] at h
          cases h
    · rw [if_neg h4] at h
      cases h

theorem litHttp_schemeLitLen {lit : List Char} (u : List Char) (h : LitHttp lit) :
    schemeLitLen (lit ++ u) = some lit.length := by
  rcases h with ⟨c1, c2, c3, c4, rfl, hH, hT1, hT2, hP⟩ |
    ⟨c1, c2, c3, c4, c5, rfl, hH, hT1, hT2, hP, hS⟩
  · have hS' : foldS ':' = false := by decide
    simp [schemeLitLen, hH, hT1, hT2, hP, hS']
  · simp [schemeLitLen, hH, hT1, hT2, hP, hS]

theorem schemeLitLen_vals {l : List Char} {p : Nat} (h : schemeLitLen l = some p) :
    p = 5 ∨ p = 6 := by
  rcases schemeLitLen_sound h with ⟨lit, u, -, hlen, hl⟩
  rcases hl with ⟨c1, c2, c3, c4, rfl, -, -, -, -⟩ |
    ⟨c1, c2, c3, c4, c5, rfl, -, -, -, -, -⟩
  · left; simp at hlen; omega
  · right; simp at hlen; omega

theorem slashRunLen_cons_slash (t : List Char) :
    slashRunLen ('/' :: t) = slashRunLen t + 1 := by
  simp [slashRunLen, List.takeWhile_cons]

theorem slashRunLen_cons_ne {c : Char} (t : List Char) (h : c ≠ '/') :
    slashRunLen (c :: t) = 0 := by
  have hb : (c == '/') = false := by simpa using h
  simp [slashRunLen, List.takeWhile_cons, hb]

theorem drop_head_slash : ∀ {x : List Char} {i : Nat}, i < slashRunLen x →
    ∃ t, x.drop i = '/' :: t := by
  intro x
  induction x with
  | nil => intro i h; simp [slashRunLen] at h
  | cons c t ih =>
    intro i h
    by_cases hc : c = '/'
    · subst hc
      cases i with
      | zero => exact ⟨t, rfl⟩
      | succ i' =>
        rw [slashRunLen_cons_slash] at h
        exact ih (by omega)
    · rw [slashRunLen_cons_ne t hc] at h
      omega

theorem slashBranch_step {l : List Char} {p i : Nat}
    (h : i < slashRunLen (l.drop p)) :
    slashBranch l p i = (slashBranch l p (i + 1) <|>
      (tryFinal (l.drop (p + i + 1))).map (fun r => (p + i + 1) + r)) := by
  obtain ⟨t', hd⟩ := drop_head_slash h
  have hdd : List.drop i (List.drop p l) = List.drop (p + i) l := List.drop_drop i p l
  have hd' : l.drop (p + i) = '/' :: t' := by rw [← hdd, hd]
  have ht2 : l.drop (p + i + 1) = t' := drop_succ_of_drop hd'
  rw [slashBranch, slashBranch, show p + (i + 1) = p + i + 1 by omega, ht2, hd',
    bodySearchK_body_step t' tryFinal isBodyChar_slash]
  rcases bodySearchK tryFinal t' with _ | r <;> rcases tryFinal t' with _ | f <;>
    simp [Option.map_map, Function.comp, Nat.add_assoc]

theorem slashBranch_chain (l : List Char) (p : Nat) :
    ∀ d i j, i + d = j → j ≤ slashRunLen (l.drop p) →
      ∃ y, slashBranch l p i = (slashBranch l p j <|> y) := by
  intro d
  induction d with
  | zero =>
    intro i j heq hj
    subst heq
    exact ⟨none, by rw [opt_orElse_none, Nat.add_zero]⟩
  | succ d ihd =>
    intro i j heq hj
    obtain ⟨y', hy'⟩ := ihd (i + 1) j (by omega) hj
    exact ⟨y' <|> (tryFinal (l.drop (p + i + 1))).map (fun r => (p + i + 1) + r),
      by rw [slashBranch_step (by omega), hy', opt_orElse_assoc]⟩

theorem slashTry_zero (p : Nat) (l : List Char) : slashTry p l 0 = none := rfl

theorem slashTry_succ (p : Nat) (l : List Char) (j : Nat) :
    slashTry p l (j + 1) =
      ((Option.map (fun r => (p + (j + 1)) + r) (bodyFinalGo (l.drop (p + (j + 1))))) <|>
        slashTry p l j) := rfl

theorem slashTry_collapse (l : List Char) (p : Nat) :
    ∀ m, 1 ≤ m → m ≤ slashRunLen (l.drop p) → slashTry p l m = slashBranch l p 1 := by
  intro m
  induction m with
  | zero => intro h1; omega
  | succ m ihm =>
    intro h1 hm
    rw [slashTry_succ, bodyFinalGo_eq]
    cases m with
    | zero =>
      rw [slashTry_zero, opt_orElse_none, Nat.zero_add]
      rfl
    | succ m' =>
      rw [ihm (by omega) (by omega)]
      have hb : (bodySearchK tryFinal (l.drop (p + (m' + 1 + 1)))).map
          (fun r => (p + (m' + 1 + 1)) + r) = slashBranch l p (m' + 1 + 1) := rfl
      rw [hb]
      obtain ⟨y, hy⟩ := slashBranch_chain l p (m' + 1) 1 (m' + 1 + 1) (by omega) (by omega)
      rw [hy, opt_orElse_idem]

theorem matchHere_no_scheme {l : List Char} (h : schemeLitLen l = none) :
    matchHere l = none := by
  simp [matchHere, h]

theorem matchHere_nil : matchHere [] = none := rfl

theorem matchHere_slash {l : List Char} {p : Nat} (hp : schemeLitLen l = some p)
    (hs : 1 ≤ slashRunLen (l.drop p)) : matchHere l = slashBranch l p 1 := by
  have hmin : 0 < min (slashRunLen (l.drop p)) 3 := by
    have := Nat.lt_min.2 (⟨hs, by omega⟩ : 0 < slashRunLen (l.drop p) ∧ 0 < 3)
    omega
  simp only [matchHere, hp]
  rw [if_pos hmin]
  exact slashTry_collapse l p _ hmin (Nat.min_le_left _ _)

theorem matchHere_alt {l : List Char} {p : Nat} {c : Char} {rest0 : List Char}
    (hp : schemeLitLen l = some p) (hs0 : slashRunLen (l.drop p) = 0)
    (hd : l.drop p = c :: rest0) (hsc : isSchemeTail c = true) :
    matchHere l =
      (bodySearchK tryFinal (l.drop (p + 1))).map (fun r => (p + 1) + r) := by
  simp only [matchHere, hp, hs0]
  rw [if_neg (by simp), hd]
  simp only []
  rw [if_pos hsc, bodyFinalGo_eq]

theorem bodySearchK_le {l : List Char} {r : Nat}
    (h : bodySearchK tryFinal l = some r) : r ≤ l.length := by
  rcases bodyFinal_sound l.length l r le_rfl h with ⟨b, f, u, rfl, -, -, rfl⟩
  simp only [List.length_append]
  omega

theorem matchHere_alt_nil {l : List Char} {p : Nat} (hp : schemeLitLen l = some p)
    (hd : l.drop p = []) : matchHere l = none := by
  have hs0 : slashRunLen (l.drop p) = 0 := by rw [hd]; rfl
  simp only [matchHere, hp, hs0]
  rw [if_neg (by simp), hd]

theorem matchHere_alt_bad {l : List Char} {p : Nat} {c : Char} {rest0 : List Char}
    (hp : schemeLitLen l = some p) (hs0 : slashRunLen (l.drop p) = 0)
    (hd : l.drop p = c :: rest0) (hsc : isSchemeTail c = false) :
    matchHere l = none := by
  simp only [matchHere, hp, hs0]
  rw [if_neg (by simp), hd]
  simp only []
  rw [if_neg (by simp [hsc])]

theorem bodySeg_replicate_slash {b : List Char} (hb : BodySeg b) :
    ∀ k, BodySeg (List.replicate k '/' ++ b) := by
  intro k
  induction k with
  | zero => simpa using hb
  | succ k ihk =>
    rw [List.replicate_succ, List.cons_append]
    exact bodySeg_cons_of isBodyChar_slash (Or.inr ihk)

theorem matchHere_sound {l : List Char} {n : Nat} (h : matchHere l = some n) :
    ∃ w u, l = w ++ u ∧ w.length = n ∧ UrlMatch w := by
  rcases hp : schemeLitLen l with _ | p
  · rw [matchHere_no_scheme hp] at h; cases h
  · rcases schemeLitLen_sound hp with ⟨lit, u0, heql, hlenlit, hlit⟩
    have hdropp : l.drop p = u0 := by rw [heql, ← hlenlit, List.drop_left]
    by_cases hsl : 1 ≤ slashRunLen (l.drop p)
    · rw [matchHere_slash hp hsl, slashBranch] at h
      rcases Option.map_eq_some'.1 h with ⟨r, hr, hn⟩
      obtain ⟨t0, hd0⟩ := drop_head_slash (show 0 < slashRunLen (l.drop p) from hsl)
      rw [List.drop_zero] at hd0
      have hd1 : l.drop (p + 1) = t0 := drop_succ_of_drop hd0
      rw [hd1] at hr
      rcases bodyFinal_sound t0.length t0 r le_rfl hr with
        ⟨b, f, u, hteq, hbs, hfs, hrlen⟩
      have hu0 : u0 = '/' :: t0 := by rw [← hdropp, hd0]
      refine ⟨lit ++ ['/'] ++ b ++ f, u, ?_, ?_, ?_⟩
      · rw [heql, hu0, hteq]
        simp [List.append_assoc]
      · simp only [List.length_append, List.length_singleton]
        omega
      · exact ⟨lit ++ ['/'], b, f, by simp [List.append_assoc],
          ⟨lit, ['/'], rfl, hlit, Or.inl ⟨1, le_rfl, by omega, by simp⟩⟩, hbs, hfs⟩
    · have hs0 : slashRunLen (l.drop p) = 0 := by omega
      rcases hdu : l.drop p with _ | ⟨c, rest0⟩
      · rw [matchHere_alt_nil hp hdu] at h; cases h
      · by_cases hsc : isSchemeTail c
        · rw [matchHere_alt hp hs0 hdu hsc] at h
          rcases Option.map_eq_some'.1 h with ⟨r, hr, hn⟩
          have hd1 : l.drop (p + 1) = rest0 := drop_succ_of_drop hdu
          rw [hd1] at hr
          rcases bodyFinal_sound rest0.length rest0 r le_rfl hr with
            ⟨b, f, u, hteq, hbs, hfs, hrlen⟩
          have hu0 : u0 = c :: rest0 := by rw [← hdropp, hdu]
          refine ⟨lit ++ [c] ++ b ++ f, u, ?_, ?_, ?_⟩
          · rw [heql, hu0, hteq]
            simp [List.append_assoc]
          · simp only [List.length_append, List.length_singleton]
            omega
          · exact ⟨lit ++ [c], b, f, by simp [List.append_assoc],
              ⟨lit, [c], rfl, hlit, Or.inr ⟨c, rfl, hsc⟩⟩, hbs, hfs⟩
        · rw [matchHere_alt_bad hp hs0 hdu (by simpa using hsc)] at h
          cases h

theorem matchHere_complete {l w u : List Char} (heq : l = w ++ u) (hw : UrlMatch w) :
    ∃ n, matchHere l = some n := by
  rcases hw with ⟨s, b, f, hwdecomp, hss, hbs, hfs⟩
  rcases hss with ⟨lit, v, hsdecomp, hlit, hv⟩
  have hX : l = lit ++ (v ++ (b ++ (f ++ u))) := by
    rw [heq, hwdecomp, hsdecomp]
    simp [List.append_assoc]
  have hp : schemeLitLen l = some lit.length := by
    rw [hX]
    exact litHttp_schemeLitLen _ hlit
  have hdropp : l.drop lit.length = v ++ (b ++ (f ++ u)) := by
    rw [hX, List.drop_left]
  rcases hv with ⟨j, hj1, hj3, hvrep⟩ | ⟨ch, hvch, hsc⟩
  · subst hvrep
    obtain ⟨j', rfl⟩ : ∃ j', j = j' + 1 := ⟨j - 1, by omega⟩
    have hcons : l.drop lit.length =
        '/' :: (List.replicate j' '/' ++ (b ++ (f ++ u))) := by
      rw [hdropp, List.replicate_succ, List.cons_append]
    have hsl : 1 ≤ slashRunLen (l.drop lit.length) := by
      rw [hcons, slashRunLen_cons_slash]
      omega
    have hd1 : l.drop (lit.length + 1) =
        List.replicate j' '/' ++ (b ++ (f ++ u)) := drop_succ_of_drop hcons
    obtain ⟨r, hr⟩ := bodyFinal_complete (List.replicate j' '/' ++ (b ++ (f ++ u))).length
      _ le_rfl (List.replicate j' '/' ++ b) f u (by simp [List.append_assoc])
      (bodySeg_replicate_slash hbs j') hfs
    refine ⟨(lit.length + 1) + r, ?_⟩
    rw [matchHere_slash hp hsl, slashBranch, hd1, hr]
    rfl
  · subst hvch
    have hd : l.drop lit.length = ch :: (b ++ (f ++ u)) := by
      rw [hdropp]
      rfl
    have hchs : ch ≠ '/' := by
      intro hc
      rw [hc, isSchemeTail_not_slash] at hsc
      cases hsc
    have hs0 : slashRunLen (l.drop lit.length) = 0 := by
      rw [hd]
      exact slashRunLen_cons_ne _ hchs
    have hd1 : l.drop (lit.length + 1) = b ++ (f ++ u) := drop_succ_of_drop hd
    obtain ⟨r, hr⟩ := bodyFinal_complete (b ++ (f ++ u)).length _ le_rfl b f u
      (by simp) hbs hfs
    refine ⟨(lit.length + 1) + r, ?_⟩
    rw [matchHere_alt hp hs0 hd hsc, hd1, hr]
    rfl

theorem matchHere_max {l : List Char} {n : Nat} (h : matchHere l = some n)
    {w u : List Char} (heq : l = w ++ u) (hw : UrlMatch w) : w.length ≤ n := by
  rcases hw with ⟨s, b, f, hwdecomp, hss, hbs, hfs⟩
  rcases hss with ⟨lit, v, hsdecomp, hlit, hv⟩
  have hX : l = lit ++ (v ++ (b ++ (f ++ u))) := by
    rw [heq, hwdecomp, hsdecomp]
    simp [List.append_assoc]
  have hp : schemeLitLen l = some lit.length := by
    rw [hX]
    exact litHttp_schemeLitLen _ hlit
  have hdropp : l.drop lit.length = v ++ (b ++ (f ++ u)) := by
    rw [hX, List.drop_left]
  rcases hv with ⟨j, hj1, hj3, hvrep⟩ | ⟨ch, hvch, hsc⟩
  · subst hvrep
    obtain ⟨j', rfl⟩ : ∃ j', j = j' + 1 := ⟨j - 1, by omega⟩
    have hcons : l.drop lit.length =
        '/' :: (List.replicate j' '/' ++ (b ++ (f ++ u))) := by
      rw [hdropp, List.replicate_succ, List.cons_append]
    have hsl : 1 ≤ slashRunLen (l.drop lit.length) := by
      rw [hcons, slashRunLen_cons_slash]
      omega
    rw [matchHere_slash hp hsl, slashBranch] at h
    rcases Option.map_eq_some'.1 h with ⟨r, hr, hn⟩
    have hd1 : l.drop (lit.length + 1) =
        List.replicate j' '/' ++ (b ++ (f ++ u)) := drop_succ_of_drop hcons
    rw [hd1] at hr
    have hmax := bodyFinal_max (List.replicate j' '/' ++ (b ++ (f ++ u))).length
      _ r le_rfl hr (List.replicate j' '/' ++ b) f u (by simp [List.append_assoc])
      (bodySeg_replicate_slash hbs j') hfs
    rw [hwdecomp, hsdecomp]
    simp only [List.length_append, List.length_replicate] at hmax ⊢
    omega
  · subst hvch
    have hd : l.drop lit.length = ch :: (b ++ (f ++ u)) := by
      rw [hdropp]
      rfl
    have hchs : ch ≠ '/' := by
      intro hc
      rw [hc, isSchemeTail_not_slash] at hsc
      cases hsc
    have hs0 : slashRunLen (l.drop lit.length) = 0 := by
      rw [hd]
      exact slashRunLen_cons_ne _ hchs
    rw [matchHere_alt hp hs0 hd hsc] at h
    rcases Option.map_eq_some'.1 h with ⟨r, hr, hn⟩
    have hd1 : l.drop (lit.length + 1) = b ++ (f ++ u) := drop_succ_of_drop hd
    rw [hd1] at hr
    have hmax := bodyFinal_max (b ++ (f ++ u)).length _ r le_rfl hr b f u
      (by simp) hbs hfs
    rw [hwdecomp, hsdecomp]
    simp only [List.length_append, List.length_singleton] at hmax ⊢
    omega

theorem matchHere_bounds {l : List Char} {n : Nat} (h : matchHere l = some n) :
    6 ≤ n ∧ n ≤ l.length := by
  rcases hp : schemeLitLen l with _ | p
  · rw [matchHere_no_scheme hp] at h; cases h
  · have hp56 := schemeLitLen_vals hp
    by_cases hsl : 1 ≤ slashRunLen (l.drop p)
    · rw [matchHere_slash hp hsl, slashBranch] at h
      rcases Option.map_eq_some'.1 h with ⟨r, hr, hn⟩
      have h1 := bodySearchK_pos hr
      have h2 := bodySearchK_le hr
      have h3 : (l.drop (p + 1)).length = l.length - (p + 1) := by
        simp [List.length_drop]
      omega
    · have hs0 : slashRunLen (l.drop p) = 0 := by omega
      rcases hdu : l.drop p with _ | ⟨c, rest0⟩
      · rw [matchHere_alt_nil hp hdu] at h; cases h
      · by_cases hsc : isSchemeTail c
        · rw [matchHere_alt hp hs0 hdu hsc] at h
          rcases Option.map_eq_some'.1 h with ⟨r, hr, hn⟩
          have h1 := bodySearchK_pos hr
          have h2 := bodySearchK_le hr
          have h3 : (l.drop (p + 1)).length = l.length - (p + 1) := by
            simp [List.length_drop]
          omega
        · rw [matchHere_alt_bad hp hs0 hdu (by simpa using hsc)] at h
          cases h

/-! ### The scan for the leftmost match -/

theorem get_of_drop_cons : ∀ {src : List Char} {i : Nat} {c : Char} {rest : List Char},
    src.drop i = c :: rest → src.get? i = some c := by
  intro src
  induction src with
  | nil => intro i c rest h; simp at h
  | cons a t ih =>
    intro i c rest h
    cases i with
    | zero =>
      injection h with h1 h2
      subst h1
      rfl
    | succ i' => exact ih (by simpa using h)

theorem boundaryAt_of {src : List Char} {i : Nat} {c : Char} {rest : List Char}
    (hd : src.drop i = c :: rest) (pw : Bool)
    (hpw : pw = (decide (i ≠ 0) && wordAt src (i - 1))) :
    boundaryAt src i = (pw != isWordChar c) := by
  have hw : wordAt src i = isWordChar c := by rw [wordAt, get_of_drop_cons hd]
  rw [boundaryAt, hw, hpw]

theorem urlFindAux_sound :
    ∀ l pw i src,
      src.drop i = l →
      pw = (decide (i ≠ 0) && wordAt src (i - 1)) →
      ∀ j n, urlFindAux pw i l = some (j, n) →
        i ≤ j ∧ boundaryAt src j = true ∧ matchHere (src.drop j) = some n ∧
          ∀ j', i ≤ j' → j' < j → boundaryAt src j' = true →
            matchHere (src.drop j') = none := by
  intro l
  induction l with
  | nil =>
    intro pw i src hd hpw j n h
    rw [show urlFindAux pw i [] = none from rfl] at h
    cases h
  | cons c rest ih =>
    intro pw i src hd hpw j n h
    have hb := boundaryAt_of hd pw hpw
    have hd' : src.drop (i + 1) = rest := drop_succ_of_drop hd
    have hpw' : isWordChar c = (decide (i + 1 ≠ 0) && wordAt src (i + 1 - 1)) := by
      simp only [show i + 1 - 1 = i by omega]
      rw [wordAt, get_of_drop_cons hd]
      simp
    by_cases hbc : pw != isWordChar c
    · rw [urlFindAux, if_pos hbc] at h
      rcases hmh : matchHere (c :: rest) with _ | n0
      · rw [hmh] at h
        obtain ⟨h1, h2, h3, h4⟩ := ih (isWordChar c) (i + 1) src hd' hpw' j n h
        refine ⟨by omega, h2, h3, ?_⟩
        intro j' hj1 hj2 hbj
        rcases Nat.eq_or_lt_of_le hj1 with rfl | hlt
        · rw [hd]
          exact hmh
        · exact h4 j' (by omega) hj2 hbj
      · rw [hmh] at h
        simp only [Option.some.injEq, Prod.mk.injEq] at h
        obtain ⟨rfl, rfl⟩ := h
        refine ⟨le_rfl, by rw [hb]; exact hbc, by rw [hd]; exact hmh, ?_⟩
        intro j' hj1 hj2 hbj
        omega
    · rw [urlFindAux, if_neg hbc] at h
      obtain ⟨h1, h2, h3, h4⟩ := ih (isWordChar c) (i + 1) src hd' hpw' j n h
      refine ⟨by omega, h2, h3, ?_⟩
      intro j' hj1 hj2 hbj
      rcases Nat.eq_or_lt_of_le hj1 with rfl | hlt
      · exfalso
        rw [hb] at hbj
        exact hbc hbj
      · exact h4 j' (by omega) hj2 hbj

theorem urlFindAux_none :
    ∀ l pw i src,
      src.drop i = l →
      pw = (decide (i ≠ 0) && wordAt src (i - 1)) →
      urlFindAux pw i l = none →
      ∀ j', i ≤ j' → boundaryAt src j' = true → matchHere (src.drop j') = none := by
  intro l
  induction l with
  | nil =>
    intro pw i src hd hpw h j' hj hbj
    have hnil : src.drop j' = [] := by
      have hlen := congrArg List.length hd
      simp only [List.length_drop, List.length_nil] at hlen
      have : src.length ≤ j' := by omega
      exact List.drop_eq_nil_of_le this
    rw [hnil, matchHere_nil]
  | cons c rest ih =>
    intro pw i src hd hpw h j' hj hbj
    have hb := boundaryAt_of hd pw hpw
    have hd' : src.drop (i + 1) = rest := drop_succ_of_drop hd
    have hpw' : isWordChar c = (decide (i + 1 ≠ 0) && wordAt src (i + 1 - 1)) := by
      simp only [show i + 1 - 1 = i by omega]
      rw [wordAt, get_of_drop_cons hd]
      simp
    by_cases hbc : pw != isWordChar c
    · rw [urlFindAux, if_pos hbc] at h
      rcases hmh : matchHere (c :: rest) with _ | n0
      · rw [hmh] at h
        rcases Nat.eq_or_lt_of_le hj with rfl | hlt
        · rw [hd]
          exact hmh
        · exact ih _ _ _ hd' hpw' h j' (by omega) hbj
      · rw [hmh] at h
        cases h
    · rw [urlFindAux, if_neg hbc] at h
      rcases Nat.eq_or_lt_of_le hj with rfl | hlt
      · exfalso
        rw [hb] at hbj
        exact hbc hbj
      · exact ih _ _ _ hd' hpw' h j' (by omega) hbj

theorem urlFind_some_spec {src : List Char} {i n : Nat}
    (h : urlFind src = some (i, n)) :
    boundaryAt src i = true ∧ matchHere (src.drop i) = some n ∧
      ∀ j, j < i → boundaryAt src j = true → matchHere (src.drop j) = none := by
  obtain ⟨-, h2, h3, h4⟩ := urlFindAux_sound src false 0 src (by simp) (by simp) i n h
  exact ⟨h2, h3, fun j hj hbj => h4 j (by omega) hj hbj⟩

theorem urlFind_none_spec {src : List Char} (h : urlFind src = none) :
    ∀ j, boundaryAt src j = true → matchHere (src.drop j) = none := by
  intro j hbj
  exact urlFindAux_none src false 0 src (by simp) (by simp) h j (by omega) hbj

theorem urlFind_bounds {src : List Char} {i n : Nat}
    (h : urlFind src = some (i, n)) : 1 ≤ n ∧ i + n ≤ src.length := by
  obtain ⟨-, h2, -⟩ := urlFind_some_spec h
  obtain ⟨h6, hle⟩ := matchHere_bounds h2
  have hdl : (src.drop i).length = src.length - i := by simp [List.length_drop]
  omega

/-! ### The formatter loop -/

theorem no_matchAt_of_urlFind_none {src : List Char} (h : urlFind src = none) :
    ∀ j m, ¬ MatchAt src j m := by
  intro j m hm
  obtain ⟨hb, w, rest, hdeq, hlen, hw⟩ := hm
  obtain ⟨n', hn'⟩ := matchHere_complete hdeq hw
  rw [urlFind_none_spec h j hb] at hn'
  cases hn'

theorem processAux_chunked : ∀ fuel src, Chunked src (processAux fuel src) := by
  intro fuel
  induction fuel with
  | zero => intro src; exact Chunked.last src
  | succ fuel ih =>
    intro src
    rcases hu : urlFind src with _ | ⟨i, n⟩
    · rw [show processAux (fuel + 1) src = escapeString src by simp [processAux, hu]]
      exact Chunked.last src
    · rw [show processAux (fuel + 1) src =
          escapeString (src.take i) ++ anchor ((src.drop i).take n) ++
            processAux fuel (src.drop (i + n)) by simp [processAux, hu]]
      obtain ⟨-, hm, -⟩ := urlFind_some_spec hu
      rcases matchHere_sound hm with ⟨w, u, hdeq, hlen, hw⟩
      have htake : (src.drop i).take n = w := by
        rw [hdeq, ← hlen, List.take_left]
      have hdrop : src.drop (i + n) = u := by
        have hdd : List.drop n (List.drop i src) = List.drop (i + n) src :=
          List.drop_drop n i src
        rw [← hdd, hdeq, ← hlen, List.drop_left]
      have hsrc : src = src.take i ++ w ++ src.drop (i + n) := by
        rw [hdrop, List.append_assoc, ← hdeq, List.take_append_drop]
      rw [htake]
      have hstep := Chunked.step (src.take i) w (src.drop (i + n))
        (processAux fuel (src.drop (i + n))) hw (ih (src.drop (i + n)))
      rw [← hsrc] at hstep
      exact hstep

/-! ### The claims -/

/-- C1: for every plain-text input processed by the formatter, the output
decomposes as the source does: literal chunks appear HTML-escaped, and every
segment recognized by the URL grammar appears verbatim, unescaped, as both
the href attribute value and the link text of its anchor element. -/
theorem c1_formatter_invariant (src : List Char) :
    Chunked src (processPlainText src) :=
  processAux_chunked (src.length + 1) src

/-- C2: for every plain-text input in which no position carries a match of
the URL grammar, the formatter output is exactly the HTML-escaped input,
each special character escaped once; in particular the input
5 < 10 & 3 > 1 yields exactly 5 &lt; 10 &amp; 3 &gt; 1. -/
theorem c2_no_url_escape_exact :
    (∀ src : List Char, (∀ j m, ¬ MatchAt src j m) →
      processPlainText src = escapeString src) ∧
    processPlainText ("5 < 10 & 3 > 1".toList) =
      ("5 &lt; 10 &amp; 3 &gt; 1".toList) := by
  constructor
  · intro src hno
    have hnone : urlFind src = none := by
      rcases hu : urlFind src with _ | ⟨i, n⟩
      · rfl
      · exfalso
        obtain ⟨hb, hm, -⟩ := urlFind_some_spec hu
        rcases matchHere_sound hm with ⟨w, u, hdeq, hlen, hw⟩
        exact hno i n ⟨hb, w, u, hdeq, hlen, hw⟩
    simp [processPlainText, processAux, hnone]
  · decide

/-- C2 witness: the concrete input 5 < 10 & 3 > 1 satisfies the
no-match hypothesis and the formatter output equals the escaped input. -/
theorem c2_witness :
    processPlainText ("5 < 10 & 3 > 1".toList) =
      escapeString ("5 < 10 & 3 > 1".toList) :=
  c2_no_url_escape_exact.1 ("5 < 10 & 3 > 1".toList)
    (no_matchAt_of_urlFind_none (by decide))

/-- C3: a closing parenthesis balancing an outer, non-URL parenthetical is
excluded from the match, while a single level of balanced parentheses inside
the URL is included: the whole Wikipedia-style URL of 55 characters is
captured as one match. -/
theorem c3_parentheses :
    processPlainText ("(see http://example.com/thing)".toList) =
      ("(see <a href=\"http://example.com/thing\">http://example.com/thing</a>)".toList) ∧
    urlFind ("http://en.wikipedia.org/wiki/PHP_(programming_language)".toList) =
      some (0, 55) ∧
    processPlainText ("http://en.wikipedia.org/wiki/PHP_(programming_language)".toList) =
      ("<a href=\"http://en.wikipedia.org/wiki/PHP_(programming_language)\">http://en.wikipedia.org/wiki/PHP_(programming_language)</a>".toList) := by
  refine ⟨by decide, by decide, by decide⟩

/-- C4: the span returned by the scan is a match of the URL grammar at a
word boundary, no earlier position carries any match, and no match at the
same position is longer than the returned one. -/
theorem c4_leftmost_longest (src : List Char) (i n : Nat)
    (h : urlFind src = some (i, n)) :
    MatchAt src i n ∧ (∀ j m, j < i → ¬ MatchAt src j m) ∧
      (∀ m, MatchAt src i m → m ≤ n) := by
  obtain ⟨hb, hm, hleft⟩ := urlFind_some_spec h
  refine ⟨?_, ?_, ?_⟩
  · rcases matchHere_sound hm with ⟨w, u, hdeq, hlen, hw⟩
    exact ⟨hb, w, u, hdeq, hlen, hw⟩
  · intro j m hj hmj
    obtain ⟨hbj, w, rest, hdeq, hlen, hw⟩ := hmj
    obtain ⟨n', hn'⟩ := matchHere_complete hdeq hw
    rw [hleft j hj hbj] at hn'
    cases hn'
  · intro m hmm
    obtain ⟨-, w, rest, hdeq, hlen, hw⟩ := hmm
    have := matchHere_max hm hdeq hw
    omega

/-- C4 witness: on the input a http://bc the scan returns position 2 and
length 9, which is a match of the grammar at a word boundary. -/
theorem c4_witness : MatchAt ("a http://bc".toList) 2 9 :=
  (c4_leftmost_longest ("a http://bc".toList) 2 9 (by decide)).1

/-- C5: the formatter maps the input see http://example.com/thing here to
exactly the expected anchor markup, with identical href and link text, the
surrounding text preserved, and the match spanning the 24 characters of the
URL so that the trailing space is not consumed. -/
theorem c5_example :
    processPlainText ("see http://example.com/thing here".toList) =
      ("see <a href=\"http://example.com/thing\">http://example.com/thing</a> here".toList) ∧
    urlFind ("see http://example.com/thing here".toList) = some (4, 24) := by
  refine ⟨by decide, by decide⟩

/-- C6: when the already-HTML flag is set the formatter is bypassed and the
message body is the raw input, byte for byte, for every input. -/
theorem c6_bypass (t : List Char) : messageBody true t = t := rfl

/-- C7: with message hello and all optional inputs at their defaults, the
built message has format html, body hello, notify false, color yellow, an
empty from field, and its serialization is exactly the JSON object with
those four members and no from member. -/
theorem c7_default_payload :
    (buildMessage false defaultColor false none ("hello".toList)).message =
      "hello".toList ∧
    (buildMessage false defaultColor false none ("hello".toList)).messageFormat =
      "html".toList ∧
    (buildMessage false defaultColor false none ("hello".toList)).notify = false ∧
    (buildMessage false defaultColor false none ("hello".toList)).color =
      "yellow".toList ∧
    (buildMessage false defaultColor false none ("hello".toList)).fromName = [] ∧
    marshalMessage (buildMessage false defaultColor false none ("hello".toList)) =
      ("\x7b\"message\":\"hello\",\"color\":\"yellow\",\"message_format\":\"html\",\"notify\":false\x7d".toList) := by
  refine ⟨by decide, by decide, rfl, by decide, rfl, by decide⟩

/-- C8: the response is classified by status code alone: 200 and 204 are
success, anything else is the post-failed outcome carrying the status line
and the raw response entity. -/
theorem c8_status_classification :
    ∀ (code : Nat) (status entity : List Char),
      (classifyResponse code status entity = SendOutcome.success ↔
        (code = 200 ∨ code = 204)) ∧
      (¬(code = 200 ∨ code = 204) →
        classifyResponse code status entity = SendOutcome.postFailed status entity) := by
  intro code status entity
  by_cases h : code = 200 ∨ code = 204
  · have hb : (code == 200 || code == 204) = true := by
      rcases h with rfl | rfl <;> simp
    rw [classifyResponse, if_pos (by simp [hb])]
    exact ⟨⟨fun _ => h, fun _ => rfl⟩, fun hc => absurd h hc⟩
  · have hb : (code == 200 || code == 204) = false := by
      push_neg at h
      simp [h.1, h.2]
    rw [classifyResponse, if_neg (by simp [hb])]
    refine ⟨⟨fun hc => ?_, fun hc => absurd hc h⟩, fun _ => rfl⟩
    exact absurd hc (by simp)

/-- C8 witness: status 204 with an empty body is success, and status 400
with an error body is the post-failed outcome surfacing that body. -/
theorem c8_witness :
    classifyResponse 204 [] [] = SendOutcome.success ∧
    classifyResponse 400 ("400 Bad Request".toList) ("oops".toList) =
      SendOutcome.postFailed ("400 Bad Request".toList) ("oops".toList) :=
  ⟨(c8_status_classification 204 [] []).1.2 (Or.inr rfl),
    (c8_status_classification 400 ("400 Bad Request".toList) ("oops".toList)).2
      (by omega)⟩

/-- C9: whenever the insecure flag is set the send reports the
not-implemented error and performs no HTTP request, whatever the other
inputs. -/
theorem c9_insecure (req : HttpRequest)
    (respond : HttpRequest → Nat × List Char × List Char) :
    performSend true req respond = (SendOutcome.notImplemented, []) := rfl

/-- C10: every match found by the scan is nonempty, lies inside the input,
and the unprocessed remainder strictly shrinks, so the formatter loop
terminates. -/
theorem c10_progress (src : List Char) (i n : Nat)
    (h : urlFind src = some (i, n)) :
    1 ≤ n ∧ i + n ≤ src.length ∧ (src.drop (i + n)).length < src.length := by
  obtain ⟨h1, h2⟩ := urlFind_bounds h
  refine ⟨h1, h2, ?_⟩
  simp only [List.length_drop]
  omega

/-- C10 witness: on the input http://ab the scan returns the whole string
and the remainder is strictly shorter. -/
theorem c10_witness :
    1 ≤ 9 ∧ 0 + 9 ≤ ("http://ab".toList).length ∧
      (("http://ab".toList).drop (0 + 9)).length < ("http://ab".toList).length :=
  c10_progress ("http://ab".toList) 0 9 (by decide)

end Hipchat
